import Mathlib

/-!
# Verification of the RustCAM geometry-to-toolpath core

This file is a shallow embedding, in Lean 4, of the CAM kernel's core pipeline
(`geometry.rs`, `slicer.rs`, `toolpath.rs`, `gcode.rs`, `lib.rs`) together with
proofs and refutations of the specification's claims about it.

Modelling conventions:

* All machine coordinates are `f64` in the source.  Every finite double is a
  rational number, so coordinates are embedded as `ℚ` and all arithmetic is
  exact.  The source's `Vec2::dist(a, b) < eps` tests (which use a square
  root) are embedded as the exactly equivalent `dist2 a b < eps^2`, where
  `dist2` is the squared distance; both sides of the comparison are
  non-negative, so the two tests agree on all inputs.
* The two places whose *values* (not control flow) involve square roots —
  the reciprocal normalization factor inside `offset_polyline` and the
  ball-end contact offset inside the surface strategy — are abstracted as the
  parameter record `RealOps`.  Every theorem below either holds for all
  instantiations of `RealOps` or does not depend on those values.  The
  ball-end offset itself is additionally embedded exactly over `ℝ`
  (`ball_end_offset`) and verified separately.
* `while` loops are embedded as structural recursion on an explicit
  fuel bound computed at the loop entry, with the loop guard kept inside the
  body, so that emitted-element properties are independent of the fuel and
  completeness is recovered by fuel-sufficiency lemmas.
* Rust `Vec` indexing / `unwrap` sites named by the safety claim are embedded
  with `Option` so that panic-freedom is a provable statement.
-/

set_option maxRecDepth 20000
set_option exponentiation.threshold 2000

/- Batteries marks the core `Rat` arithmetic `@[irreducible]`; restore the
default reducibility so that concrete instances of the definitions below can
be evaluated by `decide` (kernel reduction of exact rational arithmetic). -/
attribute [local semireducible] Rat.add Rat.sub Rat.mul Rat.inv

-- ── Geometry types (geometry.rs) ─────────────────────────────────────

structure Vec2 where
  x : ℚ
  y : ℚ
deriving DecidableEq, Repr, Inhabited

/-- Squared distance.  The source's `Vec2::dist` is
`sqrt ((ax-bx)^2 + (ay-by)^2)`; every comparison `dist a b < eps` in the
source is embedded as `dist2 a b < eps^2`, which is exactly equivalent. -/
def Vec2.dist2 (a b : Vec2) : ℚ :=
  (a.x - b.x) ^ 2 + (a.y - b.y) ^ 2

structure Vec3 where
  x : ℚ
  y : ℚ
  z : ℚ
deriving DecidableEq, Repr, Inhabited

def Vec3.lerp (a b : Vec3) (t : ℚ) : Vec3 :=
  ⟨a.x + (b.x - a.x) * t, a.y + (b.y - a.y) * t, a.z + (b.z - a.z) * t⟩

structure Triangle where
  normal : Vec3
  v0 : Vec3
  v1 : Vec3
  v2 : Vec3
deriving DecidableEq, Repr, Inhabited

def Triangle.min_z (t : Triangle) : ℚ :=
  min (min t.v0.z t.v1.z) t.v2.z

def Triangle.max_z (t : Triangle) : ℚ :=
  max (max t.v0.z t.v1.z) t.v2.z

structure BoundingBox where
  min : Vec3
  max : Vec3
deriving DecidableEq, Repr, Inhabited

/-- `f64::MAX` as an exact rational, written out as a literal (its value is
`(2^53 - 1) * 2^971`) so that it reduces cheaply. -/
def f64MAX : ℚ := 179769313486231570814527423731704356798070567525844996598917476803157260780028538760589558632766878171540458953514382464234321326889464182768467546703537516986049910576551282076245490090389328944075868508455133942304583236903222948165808559332123348274797826204144723168738177180919299881250404026184124858368

/-- `f64::MIN` as an exact rational (the most negative finite double). -/
def f64MIN : ℚ := -f64MAX

/-- One accumulation step of `BoundingBox::from_triangles`: fold a vertex
into the running (min, max) corners. -/
def bbStep (acc : Vec3 × Vec3) (v : Vec3) : Vec3 × Vec3 :=
  (⟨min acc.1.x v.x, min acc.1.y v.y, min acc.1.z v.z⟩,
   ⟨max acc.2.x v.x, max acc.2.y v.y, max acc.2.z v.z⟩)

def BoundingBox.from_triangles (tris : List Triangle) : Option BoundingBox :=
  if tris.isEmpty then none
  else
    let init : Vec3 × Vec3 := (⟨f64MAX, f64MAX, f64MAX⟩, ⟨f64MIN, f64MIN, f64MIN⟩)
    let r := tris.foldl (fun acc t => bbStep (bbStep (bbStep acc t.v0) t.v1) t.v2) init
    some ⟨r.1, r.2⟩

structure Mesh where
  triangles : List Triangle
  bounds : Option BoundingBox
deriving DecidableEq, Repr, Inhabited

/-- `Mesh::new`: compute and cache the bounds at construction time. -/
def Mesh.new (triangles : List Triangle) : Mesh :=
  ⟨triangles, BoundingBox.from_triangles triangles⟩

structure BoundingBox2 where
  min : Vec2
  max : Vec2
deriving DecidableEq, Repr, Inhabited

def bb2Step (acc : Vec2 × Vec2) (p : Vec2) : Vec2 × Vec2 :=
  (⟨min acc.1.x p.x, min acc.1.y p.y⟩, ⟨max acc.2.x p.x, max acc.2.y p.y⟩)

def BoundingBox2.from_points (pts : List Vec2) : Option BoundingBox2 :=
  if pts.isEmpty then none
  else
    let init : Vec2 × Vec2 := (⟨f64MAX, f64MAX⟩, ⟨f64MIN, f64MIN⟩)
    let r := pts.foldl bb2Step init
    some ⟨r.1, r.2⟩

structure Polyline where
  points : List Vec2
  closed : Bool
deriving DecidableEq, Repr, Inhabited

def Polyline.bounds (p : Polyline) : Option BoundingBox2 :=
  BoundingBox2.from_points p.points

structure Segment2 where
  a : Vec2
  b : Vec2
deriving DecidableEq, Repr, Inhabited

structure ToolpathMove where
  x : ℚ
  y : ℚ
  z : ℚ
  rapid : Bool
deriving DecidableEq, Repr, Inhabited

structure Toolpath where
  moves : List ToolpathMove
deriving DecidableEq, Repr, Inhabited

/-- `Toolpath::rapid` — append a rapid move. -/
def rapidMove (x y z : ℚ) : ToolpathMove := ⟨x, y, z, true⟩

/-- `Toolpath::cut` — append a cutting move. -/
def cutMove (x y z : ℚ) : ToolpathMove := ⟨x, y, z, false⟩

-- ── Tool definitions (tool.rs) ───────────────────────────────────────

inductive ToolType where
  | EndMill : ToolType
  | BallEnd : ToolType
  | FaceMill : (effective_diameter : ℚ) → ToolType
deriving DecidableEq, Repr, Inhabited

structure Tool where
  tool_type : ToolType
  diameter : ℚ
  flute_length : ℚ
  corner_radius : ℚ
deriving DecidableEq, Repr, Inhabited

def Tool.default : Tool := ⟨ToolType.EndMill, 3175/1000, 10, 0⟩

def Tool.ball_end (diameter flute_length : ℚ) : Tool :=
  ⟨ToolType.BallEnd, diameter, flute_length, diameter / 2⟩

def Tool.face_mill (diameter effective_diameter flute_length : ℚ) : Tool :=
  ⟨ToolType.FaceMill effective_diameter, diameter, flute_length, 0⟩

def Tool.mkNew (tool_type : ToolType) (diameter flute_length corner_radius : ℚ) : Tool :=
  ⟨tool_type, diameter, flute_length, corner_radius⟩

-- ── Slicer (slicer.rs) ───────────────────────────────────────────────

/-- `(1e-10)^2`: squared form of the on-plane / duplicate-point tolerance. -/
def epsTiny2 : ℚ := 1 / 10 ^ 20

/-- `1e-10`: the on-plane vertex tolerance (used in a linear comparison). -/
def epsTiny : ℚ := 1 / 10 ^ 10

/-- `(1e-6)^2`: squared form of the chaining endpoint tolerance. -/
def epsChain2 : ℚ := 1 / 10 ^ 12

/-- Contribution of one directed triangle edge `(p, q)` to the plane
intersection point list (the body of the `for &(i, j) in &edges` loop). -/
def edgePoints (p q : Vec3) (z : ℚ) : List Vec2 :=
  if (p.z - z) * (q.z - z) < 0 then
    let t := (z - p.z) / (q.z - p.z)
    let ip := Vec3.lerp p q t
    [⟨ip.x, ip.y⟩]
  else if |p.z - z| < epsTiny then [⟨p.x, p.y⟩]
  else []

/-- `Vec::dedup_by` with the closeness predicate: drop each point that lies
within `1e-10` of the last retained point. -/
def dedupCloseGo (last : Vec2) : List Vec2 → List Vec2
  | [] => []
  | p :: rest =>
    if Vec2.dist2 p last < epsTiny2 then dedupCloseGo last rest
    else p :: dedupCloseGo p rest

def dedupClose : List Vec2 → List Vec2
  | [] => []
  | p :: rest => p :: dedupCloseGo p rest

def intersect_triangle_z (a b c : Vec3) (z : ℚ) : Option Segment2 :=
  let pts := dedupClose (edgePoints a b z ++ edgePoints b c z ++ edgePoints c a z)
  match pts with
  | p0 :: p1 :: _ => some ⟨p0, p1⟩
  | _ => none

def collect_segments (mesh : Mesh) (z : ℚ) : List Segment2 :=
  mesh.triangles.filterMap fun tri =>
    if tri.min_z > z ∨ tri.max_z < z then none
    else intersect_triangle_z tri.v0 tri.v1 tri.v2 z

/-- The chainer state: each source segment paired with its `used` flag. -/
abbrev ChainState := List (Segment2 × Bool)

/-- The inner `for j in 0..segments.len()` search: find the first unused
segment one of whose endpoints matches `tail` within the tolerance, and
return its index together with the point to append (the other endpoint).
For each `j` the `a` endpoint is tested before the `b` endpoint, exactly as
in the source. -/
def findMatch (tail : Vec2) : ChainState → Option (ℕ × Vec2)
  | [] => none
  | (s, u) :: rest =>
    if u = false ∧ Vec2.dist2 s.a tail < epsChain2 then some (0, s.b)
    else if u = false ∧ Vec2.dist2 s.b tail < epsChain2 then some (0, s.a)
    else (findMatch tail rest).map fun r => (r.1 + 1, r.2)

/-- The inner `loop` of `chain_segments`, by structural recursion on a fuel
bound (each iteration marks one segment used, so `st.length` iterations
always suffice; the fuel-exhaustion branch is proved unreachable below).
`chain.last().unwrap()` is embedded via `getLast?`; the `none` result models
the panic, and panic-freedom is proved in the safety theorem. -/
def chainInnerGo : ℕ → ChainState → List Vec2 → Option (List Vec2 × ChainState)
  | 0, st, chain =>
    match chain.getLast? with
    | none => none
    | some tail =>
      match findMatch tail st with
      | none => some (chain, st)
      | some _ => none
  | fuel + 1, st, chain =>
    match chain.getLast? with
    | none => none
    | some tail =>
      match findMatch tail st with
      | none => some (chain, st)
      | some (j, next) =>
        match st[j]? with
        | none => none
        | some (s, _) => chainInnerGo fuel (st.set j (s, true)) (chain ++ [next])

def chainInner (st : ChainState) (chain : List Vec2) : Option (List Vec2 × ChainState) :=
  chainInnerGo st.length st chain

/-- Publication of a finished chain (`slicer.rs` lines 120-124): mark it
closed when it has more than two points and its ends coincide within the
tolerance, dropping the duplicate closing point in that case. -/
def publishChain (chain : List Vec2) (h0 hl : Vec2) : Polyline :=
  if 2 < chain.length ∧ Vec2.dist2 h0 hl < epsChain2 then ⟨chain.dropLast, true⟩
  else ⟨chain, false⟩

/-- The outer `for start_idx in 0..segments.len()` loop of `chain_segments`,
recursing over the list of start indices. -/
def chainOuter (st : ChainState) : List ℕ → Option (List Polyline)
  | [] => some []
  | idx :: rest =>
    match st[idx]? with
    | none => none
    | some (_, true) => chainOuter st rest
    | some (s, false) =>
      let st1 := st.set idx (s, true)
      match chainInner st1 [s.a, s.b] with
      | none => none
      | some (chain, st2) =>
        match chain.head?, chain.getLast? with
        | some h0, some hl =>
          (chainOuter st2 rest).map fun ps => publishChain chain h0 hl :: ps
        | _, _ => none

def chain_segments (segments : List Segment2) : Option (List Polyline) :=
  if segments.isEmpty then some []
  else chainOuter (segments.map fun s => (s, false)) (List.range segments.length)

/-- `slice_at_z`.  The chainer's `Option` (panic) is forwarded; panic-freedom
is proved separately, and the orchestrator-level definitions use `getD []`
at this provably-unreachable default. -/
def slice_at_z (mesh : Mesh) (z : ℚ) : List Polyline :=
  (chain_segments (collect_segments mesh z)).getD []

/-- The `while z <= z_max` layer loop of `slice_mesh`, by structural
recursion on a fuel bound with the guard kept inside (so every emitted layer
satisfies the guard regardless of fuel; sufficiency of the fuel chosen by
`slice_mesh` is proved where needed). -/
def sliceGo (mesh : Mesh) (layer_height z_max : ℚ) : ℕ → ℚ → List (ℚ × List Polyline)
  | 0, _ => []
  | fuel + 1, z =>
    if z ≤ z_max then
      let contours := slice_at_z mesh z
      if contours.isEmpty then sliceGo mesh layer_height z_max fuel (z + layer_height)
      else (z, contours) :: sliceGo mesh layer_height z_max fuel (z + layer_height)
    else []

def slice_mesh (mesh : Mesh) (layer_height : ℚ) : List (ℚ × List Polyline) :=
  match mesh.bounds with
  | none => []
  | some b =>
    let z_min := b.min.z + layer_height * (1/2)
    let z_max := b.max.z
    let fuel := (⌈(z_max - z_min) / layer_height⌉ + 1).toNat
    sliceGo mesh layer_height z_max fuel z_min

-- ── Square-root abstraction ──────────────────────────────────────────

/-- The two sub-expressions of the core whose *values* are square roots and
therefore not representable in `ℚ`:

* `recipLen nx ny` stands for `1.0 / sqrt(nx*nx + ny*ny)` in
  `offset_polyline` (the factor `dist * n / len` is embedded as
  `dist * n * recipLen`);
* `ballOff normal radius` stands for `ball_end_offset(normal, radius)` in
  the surface strategy.

All guards that decide *whether* these values are used (`len < 1e-10`,
tool-type tests) are rational and embedded exactly.  Every theorem below
either quantifies over all instantiations of this record or does not depend
on the abstracted values; `ball_end_offset` itself is embedded exactly over
`ℝ` further down and verified there. -/
structure RealOps where
  recipLen : ℚ → ℚ → ℚ
  ballOff : Vec3 → ℚ → ℚ × ℚ × ℚ

-- ── Cutting parameters (toolpath.rs) ─────────────────────────────────

structure CutParams where
  tool : Tool
  tool_diameter : ℚ
  step_over : ℚ
  step_down : ℚ
  feed_rate : ℚ
  plunge_rate : ℚ
  safe_z : ℚ
  cut_z : ℚ
  climb_cut : Bool
  perimeter_passes : ℕ
deriving DecidableEq, Repr, Inhabited

def CutParams.default : CutParams :=
  ⟨Tool.default, Tool.default.diameter, 3/2, 1, 800, 300, 5, 0, false, 1⟩

inductive ScanDirection where
  | X : ScanDirection
  | Y : ScanDirection
deriving DecidableEq, Repr, Inhabited

/-- `SurfaceParams` (mesh held by value in the embedding). -/
structure SurfaceParams where
  mesh : Mesh
  cut_params : CutParams
  scan_direction : ScanDirection
deriving DecidableEq, Repr, Inhabited

-- ── Polyline offset (toolpath.rs, offset_polyline) ───────────────────

/-- The body of the `for i in 0..n` loop of `offset_polyline` at index `i`.
`recipLen` abstracts `1 / len` (see `RealOps`); the degenerate-normal guard
`len < 1e-10` is the exact rational test `nx^2 + ny^2 < (1e-10)^2`. -/
def offsetVertex (ops : RealOps) (poly : Polyline) (dist : ℚ) (i : ℕ) : Vec2 :=
  let pts := poly.points
  let n := pts.length
  let pi := pts.getD i ⟨0, 0⟩
  let prev := if i = 0 then (if poly.closed then pts.getD (n - 1) ⟨0, 0⟩ else pts.getD 0 ⟨0, 0⟩)
    else pts.getD (i - 1) ⟨0, 0⟩
  let next := if i = n - 1 then (if poly.closed then pts.getD 0 ⟨0, 0⟩ else pts.getD (n - 1) ⟨0, 0⟩)
    else pts.getD (i + 1) ⟨0, 0⟩
  let dx1 := pi.x - prev.x
  let dy1 := pi.y - prev.y
  let dx2 := next.x - pi.x
  let dy2 := next.y - pi.y
  let nx := -(dy1 + dy2)
  let ny := dx1 + dx2
  if nx * nx + ny * ny < epsTiny2 then pi
  else ⟨pi.x + dist * nx * ops.recipLen nx ny, pi.y + dist * ny * ops.recipLen nx ny⟩

def offset_polyline (ops : RealOps) (poly : Polyline) (dist : ℚ) : List Vec2 :=
  if poly.points.length < 2 then poly.points
  else (List.range poly.points.length).map (offsetVertex ops poly dist)

-- ── Contour strategy ─────────────────────────────────────────────────

/-- Entry/plunge/follow/close/retract move sequence shared by the contour
and perimeter strategies, given the (non-empty) offset point list headed by
`p0` with final point `plast`. -/
def followMoves (p0 : Vec2) (mid : List Vec2) (plast : Vec2) (closed : Bool)
    (safe_z cut_z : ℚ) : List ToolpathMove :=
  [rapidMove p0.x p0.y safe_z, cutMove p0.x p0.y cut_z]
    ++ mid.map (fun pt => cutMove pt.x pt.y cut_z)
    ++ (if closed then [cutMove p0.x p0.y cut_z] else [])
    ++ [rapidMove plast.x plast.y safe_z]

/-- Per-contour body of `ContourStrategy::generate`; `none` models the
`continue` on an empty offset result. -/
def contourOne (ops : RealOps) (params : CutParams) (contour : Polyline) : Option Toolpath :=
  let offset := params.tool_diameter / 2
  match h : offset_polyline ops contour offset with
  | [] => none
  | p0 :: rest =>
    some ⟨followMoves p0 rest ((p0 :: rest).getLast (by simp)) contour.closed
      params.safe_z params.cut_z⟩

def contour_generate (ops : RealOps) (contours : List Polyline) (params : CutParams) :
    List Toolpath :=
  contours.filterMap (contourOne ops params)

-- ── Pocket strategy (scanline fill) ──────────────────────────────────

def scanline_intersect (poly : Polyline) (y : ℚ) : List ℚ :=
  let pts := poly.points
  let n := pts.length
  if n < 2 then []
  else (List.range n).filterMap fun i =>
    let a := pts.getD i ⟨0, 0⟩
    let b := pts.getD ((i + 1) % n) ⟨0, 0⟩
    if (a.y ≤ y ∧ b.y > y) ∨ (b.y ≤ y ∧ a.y > y) then
      some (a.x + (y - a.y) / (b.y - a.y) * (b.x - a.x))
    else none

/-- The ascending order used by `xs.sort_by(|a, b| a.partial_cmp(b).unwrap())`,
on the exact rational values of the intersections.  `f64` `partial_cmp` is
partial (`None` on NaN) and the unwrap can panic; that partiality is
modelled faithfully by `f64Cmp` below and analysed in the safety claim —
the exact-rational pipeline here takes the non-NaN branch. -/
def pocketLe (a b : ℚ) : Prop := compare a b ≠ Ordering.gt

instance : DecidableRel pocketLe := fun a b => by
  unfold pocketLe; infer_instance

/-- `xs.chunks(2)` paired with the inset-and-emit body (one scan row); pairs
with fewer than 2 elements and inverted insets are skipped. -/
def pocketPairs (offset y safe_z cut_z : ℚ) (forward : Bool) : List ℚ → List ToolpathMove
  | x0 :: x1 :: rest =>
    let x0i := x0 + offset
    let x1i := x1 - offset
    (if x0i ≥ x1i then []
     else
       let se := if forward then (x0i, x1i) else (x1i, x0i)
       [rapidMove se.1 y safe_z, cutMove se.1 y cut_z,
        cutMove se.2 y cut_z, rapidMove se.2 y safe_z])
      ++ pocketPairs offset y safe_z cut_z forward rest
  | _ => []

/-- The `while y <= y_max` row loop of `PocketStrategy::generate` (guard
inside, structural fuel). -/
def pocketRowsGo (contour : Polyline) (offset step y_max safe_z cut_z : ℚ) :
    ℕ → ℚ → Bool → List ToolpathMove
  | 0, _, _ => []
  | fuel + 1, y, forward =>
    if y ≤ y_max then
      let xs := (scanline_intersect contour y).insertionSort pocketLe
      pocketPairs offset y safe_z cut_z forward xs
        ++ pocketRowsGo contour offset step y_max safe_z cut_z fuel (y + step) (!forward)
    else []

/-- Per-contour body of `PocketStrategy::generate`; `none` models the two
`continue`s (open / short contour, missing bounds) and the
no-moves-no-publish case. -/
def pocketOne (params : CutParams) (contour : Polyline) : Option Toolpath :=
  if contour.points.length < 3 ∨ contour.closed = false then none
  else
    match contour.bounds with
    | none => none
    | some bounds =>
      let offset := params.tool_diameter / 2
      let y_min := bounds.min.y + offset
      let y_max := bounds.max.y - offset
      let step := max params.step_over (1/10)
      let fuel := (⌈(y_max - y_min) / step⌉ + 1).toNat
      let moves := pocketRowsGo contour offset step y_max params.safe_z params.cut_z fuel y_min true
      if moves.isEmpty then none else some ⟨moves⟩

def pocket_generate (contours : List Polyline) (params : CutParams) : List Toolpath :=
  contours.filterMap (pocketOne params)

-- ── Perimeter strategy ───────────────────────────────────────────────

/-- Bounding-rectangle area used by the `max_by` comparator
(`map_or(0.0, ...)`). -/
def polyArea (p : Polyline) : ℚ :=
  match p.bounds with
  | none => 0
  | some b => (b.max.x - b.min.x) * (b.max.y - b.min.y)

/-- `Iterator::max_by`: fold keeping the later element on ties, with the
`partial_cmp(..).unwrap()` comparator evaluated on the exact rational
areas (the non-NaN branch; `maxByAreaIEEE` below keeps the `f64`
partiality, including the unwrap panic). -/
def maxByArea (contours : List Polyline) : Option Polyline :=
  contours.foldl
    (fun acc c =>
      match acc with
      | none => some c
      | some m => if compare (polyArea m) (polyArea c) = Ordering.gt then some m else some c)
    none

/-- Body of the `for pass in 0..num_passes` loop of
`PerimeterStrategy::generate`: offset by `r + pass * step_over`, reverse if
climb-cutting, then entry/follow/close/retract.  `none` models the
`continue` on an empty offset result. -/
def perimeterPass (ops : RealOps) (params : CutParams) (contour : Polyline) (pass : ℕ) :
    Option Toolpath :=
  let base_offset := params.tool_diameter / 2
  let pass_offset := base_offset + (pass : ℚ) * params.step_over
  let pts0 := offset_polyline ops contour pass_offset
  let pts := if params.climb_cut then pts0.reverse else pts0
  match h : pts with
  | [] => none
  | p0 :: rest =>
    some ⟨followMoves p0 rest ((p0 :: rest).getLast (by simp)) contour.closed
      params.safe_z params.cut_z⟩

def perimeter_generate (ops : RealOps) (contours : List Polyline) (params : CutParams) :
    List Toolpath :=
  match maxByArea contours with
  | none => []
  | some contour =>
    let num_passes := max params.perimeter_passes 1
    (List.range num_passes).filterMap (perimeterPass ops params contour)

-- ── Zigzag surface strategy (toolpath.rs) ────────────────────────────

/-- Modelled from the spec: `mesh_height_at` is imported by `toolpath.rs`
from the slicer module, but its body is not under `src/` (the `slicer.rs`
present there stops at `chain_segments`).  Spec §4.1: "`height_at(mesh, x,
y)` returns the Z of the topmost triangle covering `(x, y)`...
Point-in-triangle is 2-D barycentric; Z at the hit is interpolated from
triangle vertices.  When no triangle covers the query, return absent."
This helper gives one triangle's interpolated Z when it covers `(x, y)`. -/
def triangleZAt (t : Triangle) (x y : ℚ) : Option ℚ :=
  let x0 := t.v0.x; let y0 := t.v0.y
  let x1 := t.v1.x; let y1 := t.v1.y
  let x2 := t.v2.x; let y2 := t.v2.y
  let denom := (y1 - y2) * (x0 - x2) + (x2 - x1) * (y0 - y2)
  if denom = 0 then none
  else
    let a := ((y1 - y2) * (x - x2) + (x2 - x1) * (y - y2)) / denom
    let b := ((y2 - y0) * (x - x2) + (x0 - x2) * (y - y2)) / denom
    let c := 1 - a - b
    if 0 ≤ a ∧ 0 ≤ b ∧ 0 ≤ c then some (a * t.v0.z + b * t.v1.z + c * t.v2.z)
    else none

/-- Modelled from the spec (see `triangleZAt`): topmost covering Z. -/
def mesh_height_at (mesh : Mesh) (x y : ℚ) : Option ℚ :=
  mesh.triangles.foldl
    (fun acc t =>
      match triangleZAt t x y with
      | none => acc
      | some z =>
        match acc with
        | none => some z
        | some z0 => some (max z0 z))
    none

/-- Modelled from the spec: `surface_normal_at` is likewise imported from
the missing part of the slicer module.  Spec §4.1: "`normal_at(mesh, x, y)`
returns the triangle's stored normal" for the topmost covering triangle.
The fold keeps the normal belonging to the greatest covering Z (the later
triangle on exact ties). -/
def surface_normal_at (mesh : Mesh) (x y : ℚ) : Option Vec3 :=
  let best := mesh.triangles.foldl
    (fun acc t =>
      match triangleZAt t x y with
      | none => acc
      | some z =>
        match acc with
        | none => some (z, t.normal)
        | some zn => if zn.1 > z then some zn else some (z, t.normal))
    (none : Option (ℚ × Vec3))
  best.map (·.2)

/-- `float_range`: `steps = ceil((end - start) / step) as usize + 1`, each
sample clamped to `end`.  (`as usize` on a negative float saturates to 0,
matching `Int.toNat`.) -/
def float_range (start stop step : ℚ) : List ℚ :=
  let steps := ⌈(stop - start) / step⌉.toNat + 1
  (List.range steps).map fun (i : ℕ) => min (start + (i : ℚ) * step) stop

/-- `ZigzagSurfaceStrategy::sample_point`, with the ball-end offset value
abstracted by `RealOps` (see there). -/
def sample_point (ops : RealOps) (mesh : Mesh) (x y : ℚ) (is_ball_end : Bool)
    (tool_radius : ℚ) : Option (ℚ × ℚ × ℚ) :=
  (mesh_height_at mesh x y).map fun z =>
    if is_ball_end then
      match surface_normal_at mesh x y with
      | some normal =>
        let d := ops.ballOff normal tool_radius
        (x + d.1, y + d.2.1, z + d.2.2)
      | none => (x, y, z)
    else (x, y, z)

/-- One grid row of `generate_surface`: samples along the scan axis at the
fixed row coordinate, reversed on odd rows.  `rowOf sc rc v` places the row
coordinate `rc` and the scan coordinate `v` on the correct axes. -/
def scanPoint (sc : ScanDirection) (rc v : ℚ) : ℚ × ℚ :=
  match sc with
  | ScanDirection.X => (v, rc)
  | ScanDirection.Y => (rc, v)

def zigzagRow (ops : RealOps) (mesh : Mesh) (sc : ScanDirection) (is_ball_end : Bool)
    (tool_radius lo hi step rc : ℚ) (forward : Bool) : List (ℚ × ℚ × ℚ) :=
  let range := if forward then float_range lo hi step else (float_range lo hi step).reverse
  range.filterMap fun v =>
    let p := scanPoint sc rc v
    sample_point ops mesh p.1 p.2 is_ball_end tool_radius

/-- The `while` row loop of `generate_surface` (guard inside, structural
fuel): collect the non-empty sample rows. -/
def zigzagRowsGo (ops : RealOps) (mesh : Mesh) (sc : ScanDirection) (is_ball_end : Bool)
    (tool_radius lo hi step rc_max : ℚ) : ℕ → ℚ → Bool → List (List (ℚ × ℚ × ℚ))
  | 0, _, _ => []
  | fuel + 1, rc, forward =>
    if rc ≤ rc_max then
      let row := zigzagRow ops mesh sc is_ball_end tool_radius lo hi step rc forward
      if row.isEmpty then
        zigzagRowsGo ops mesh sc is_ball_end tool_radius lo hi step rc_max fuel (rc + step) (!forward)
      else
        row :: zigzagRowsGo ops mesh sc is_ball_end tool_radius lo hi step rc_max fuel (rc + step) (!forward)
    else []

/-- Toolpath assembly of `generate_surface`: first row enters with a rapid
to safe-Z and a plunge; each later row starts with a cut to the previous
row's last sample (stay-down), then a cut to its first sample. -/
def zigzagAssemble (safe_z : ℚ) : Option (ℚ × ℚ × ℚ) → List (List (ℚ × ℚ × ℚ)) → List Toolpath
  | _, [] => []
  | prev_end, row :: rest =>
    match row with
    | [] => zigzagAssemble safe_z prev_end rest
    | (x0, y0, z0) :: tailPts =>
      let entry :=
        match prev_end with
        | none => [rapidMove x0 y0 safe_z, cutMove x0 y0 z0]
        | some (px, py, pz) => [cutMove px py pz, cutMove x0 y0 z0]
      let tp : Toolpath := ⟨entry ++ tailPts.map fun q => cutMove q.1 q.2.1 q.2.2⟩
      let last := ((x0, y0, z0) :: tailPts).getLast (by simp)
      tp :: zigzagAssemble safe_z (some last) rest

/-- Append the final retract (a rapid at safe-Z above `pe`) to the last
toolpath in the list (`toolpaths.last_mut()`). -/
def appendRetract (safe_z : ℚ) (pe : ℚ × ℚ × ℚ) : List Toolpath → List Toolpath
  | [] => []
  | [tp] => [⟨tp.moves ++ [rapidMove pe.1 pe.2.1 safe_z]⟩]
  | tp :: rest => tp :: appendRetract safe_z pe rest

/-- Last sample of the last non-empty row: the value of `prev_end` after
the assembly loop. -/
def lastSample : List (List (ℚ × ℚ × ℚ)) → Option (ℚ × ℚ × ℚ)
  | [] => none
  | row :: rest =>
    match lastSample rest with
    | some p => some p
    | none => row.getLast?

/-- `ZigzagSurfaceStrategy::generate_surface`. -/
def generate_surface (ops : RealOps) (params : SurfaceParams) : List Toolpath :=
  match params.mesh.bounds with
  | none => []
  | some bounds =>
    let step := max params.cut_params.step_over (1/10)
    let safe_z := params.cut_params.safe_z
    let is_ball_end := params.cut_params.tool.tool_type = ToolType.BallEnd
    let tool_radius := params.cut_params.tool.diameter / 2
    let lohirc :=
      match params.scan_direction with
      | ScanDirection.X => (bounds.min.x, bounds.max.x, bounds.min.y, bounds.max.y)
      | ScanDirection.Y => (bounds.min.y, bounds.max.y, bounds.min.x, bounds.max.x)
    let lo := lohirc.1; let hi := lohirc.2.1
    let rc_min := lohirc.2.2.1; let rc_max := lohirc.2.2.2
    let fuel := (⌈(rc_max - rc_min) / step⌉ + 1).toNat
    let rows := zigzagRowsGo ops params.mesh params.scan_direction is_ball_end tool_radius
      lo hi step rc_max fuel rc_min true
    let tps := zigzagAssemble safe_z none rows
    match lastSample rows with
    | none => tps
    | some pe => appendRetract safe_z pe tps

-- ── G-code emitter (gcode.rs) ────────────────────────────────────────

structure GcodeParams where
  feed_rate : ℚ
  plunge_rate : ℚ
  spindle_speed : ℚ
  safe_z : ℚ
  unit_mm : Bool
deriving DecidableEq, Repr, Inhabited

def GcodeParams.default : GcodeParams := ⟨800, 300, 12000, 5, true⟩

/-- Fixed-point decimal rendering of a rational, modelling Rust's `{:.d}`
float formatting (ties rounded half-up here; no claim below inspects a tie
digit). -/
def fmtFixed (d : ℕ) (q : ℚ) : String :=
  let neg := q < 0
  let m := (|q| * (10 : ℚ) ^ d + 1/2).floor.toNat
  let ip := m / 10 ^ d
  let fp := m % 10 ^ d
  let fpStr := toString fp
  let fpPad := String.mk (List.replicate (d - fpStr.length) '0') ++ fpStr
  (if neg then "-" else "") ++ toString ip ++ (if d = 0 then "" else "." ++ fpPad)

/-- The per-move lines of one toolpath, threading the `last_rapid` state
used by the plunge-rate heuristic. -/
def gcodeMoveLines (params : GcodeParams) : List ToolpathMove → Bool → List String
  | [], _ => []
  | mv :: rest, last_rapid =>
    if mv.rapid then
      ("G0 X" ++ fmtFixed 4 mv.x ++ " Y" ++ fmtFixed 4 mv.y ++ " Z" ++ fmtFixed 4 mv.z)
        :: gcodeMoveLines params rest true
    else
      let feed := if mv.z < params.safe_z - 1/100 ∧ last_rapid
        then params.plunge_rate else params.feed_rate
      ("G1 X" ++ fmtFixed 4 mv.x ++ " Y" ++ fmtFixed 4 mv.y ++ " Z" ++ fmtFixed 4 mv.z
          ++ " F" ++ fmtFixed 0 feed)
        :: gcodeMoveLines params rest false

/-- The header lines of `emit_gcode` (everything pushed before the
toolpath loop), one list entry per output line. -/
def gcodeHeader (params : GcodeParams) : List String :=
  ["(RustCAM - generated G-code)",
   if params.unit_mm then "G21 (metric)" else "G20 (imperial)",
   "G90 (absolute positioning)",
   "G0 Z" ++ fmtFixed 3 params.safe_z,
   "M3 S" ++ fmtFixed 0 params.spindle_speed ++ " (spindle on)",
   ""]

/-- The footer lines of `emit_gcode`. -/
def gcodeFooter (params : GcodeParams) : List String :=
  ["G0 Z" ++ fmtFixed 3 params.safe_z,
   "M5 (spindle off)",
   "G0 X0 Y0",
   "M2 (program end)"]

/-- `emit_gcode`, as the list of output lines. -/
def emit_gcode (toolpaths : List Toolpath) (params : GcodeParams) : List String :=
  gcodeHeader params
    ++ (toolpaths.enum.flatMap fun itp =>
         ("(Toolpath " ++ toString (itp.1 + 1) ++ ")")
           :: gcodeMoveLines params itp.2.moves true ++ [""])
    ++ gcodeFooter params

-- ── Orchestrator (lib.rs) ────────────────────────────────────────────

structure CamConfig where
  tool_diameter : ℚ
  tool_type : String
  corner_radius : ℚ
  effective_diameter : Option ℚ
  step_over : ℚ
  step_down : ℚ
  feed_rate : ℚ
  plunge_rate : ℚ
  spindle_speed : ℚ
  safe_z : ℚ
  cut_depth : ℚ
  strategy : String
  climb_cut : Bool
  perimeter_passes : ℕ
deriving DecidableEq, Repr, Inhabited

def CamConfig.default : CamConfig :=
  ⟨3175/1000, "end_mill", 0, none, 3/2, 1, 800, 300, 12000, 5, -1, "contour", false, 1⟩

def tool_from_config (config : CamConfig) : Tool :=
  if config.tool_type = "ball_end" then Tool.ball_end config.tool_diameter 10
  else if config.tool_type = "face_mill" then
    Tool.face_mill config.tool_diameter
      (config.effective_diameter.getD config.tool_diameter) 10
  else Tool.mkNew ToolType.EndMill config.tool_diameter 10 config.corner_radius

def cutParamsOf (config : CamConfig) : CutParams :=
  ⟨tool_from_config config, config.tool_diameter, config.step_over, config.step_down,
   config.feed_rate, config.plunge_rate, config.safe_z, config.cut_depth,
   config.climb_cut, config.perimeter_passes⟩

/-- The trait-object dispatch used for 2-D inputs and for sliced layers:
pocket / perimeter by name, contour otherwise. -/
def strategyGenerate (ops : RealOps) (name : String) (contours : List Polyline)
    (params : CutParams) : List Toolpath :=
  if name = "pocket" then pocket_generate contours params
  else if name = "perimeter" then perimeter_generate ops contours params
  else contour_generate ops contours params

/-- Per-layer toolpaths of the sliced 3-D path: clone the params with
`cut_z := z` and run the chosen 2-D strategy. -/
def layerToolpaths (ops : RealOps) (name : String) (params : CutParams)
    (layers : List (ℚ × List Polyline)) : List Toolpath :=
  layers.flatMap fun zc => strategyGenerate ops name zc.2 { params with cut_z := zc.1 }

/-- `build_toolpaths_stl`: zigzag goes straight to the surface strategy;
the rest slice at `step_down` and run per layer, with the
slice-once-near-the-bottom fallback when no layer produced a toolpath. -/
def build_toolpaths_stl (ops : RealOps) (mesh : Mesh) (config : CamConfig) : List Toolpath :=
  let cut_params := cutParamsOf config
  if config.strategy = "zigzag" then
    generate_surface ops ⟨mesh, cut_params, ScanDirection.X⟩
  else
    let layers := slice_mesh mesh config.step_down
    let all := layerToolpaths ops config.strategy cut_params layers
    if all.isEmpty then
      let contours := slice_at_z mesh (match mesh.bounds with
        | none => 0
        | some b => b.min.z + 1/100)
      strategyGenerate ops config.strategy contours cut_params
    else all

/-- The 2-D depth-step loop of `build_toolpaths_svg` / `process_svg`,
projected to the sequence of `cut_z` values it uses (guard inside,
structural fuel): decrement by `step_down`, clamp at `cut_depth`, and stop
after the first layer within `0.001` of `cut_depth`. -/
def depthZsGo (cut_depth step_down : ℚ) : ℕ → ℚ → List ℚ
  | 0, _ => []
  | fuel + 1, z =>
    if cut_depth - 1/1000 < z then
      let z1 := z - step_down
      let z2 := if z1 < cut_depth then cut_depth else z1
      if |z2 - cut_depth| < 1/1000 then [z2]
      else z2 :: depthZsGo cut_depth step_down fuel z2
    else []

def depthZs (cut_depth step_down : ℚ) : List ℚ :=
  let fuel := ⌈(-cut_depth) / step_down⌉.toNat + 2
  depthZsGo cut_depth step_down fuel 0

/-- `build_toolpaths_svg`: run the dispatched strategy once per depth
layer, appending the toolpaths in layer order. -/
def build_toolpaths_svg (ops : RealOps) (polylines : List Polyline) (config : CamConfig) :
    List Toolpath :=
  let cut_params := cutParamsOf config
  (depthZs config.cut_depth config.step_down).flatMap fun z =>
    strategyGenerate ops config.strategy polylines { cut_params with cut_z := z }

-- ── IEEE f64 partiality model (toolpath.rs comparators) ──────────────

/-- Shallow model of an IEEE `f64` *value* for the partiality analysis of
the `partial_cmp(..).unwrap()` sites: a finite double carried exactly as a
rational, a signed infinity (`neg = true` for `-inf`), or NaN.  The model
is exact on exactly representable results and sends results past the IEEE
round-to-infinity threshold to the matching infinity; finite-but-inexact
results play no role in the claims below (every arithmetic step there is
either exact or unambiguously overflowing). -/
inductive F64 where
  | finite : ℚ → F64
  | inf : (neg : Bool) → F64
  | nan : F64
deriving DecidableEq, Repr, Inhabited

/-- The `f64` round-to-nearest overflow threshold `2^1024 - 2^970`: exact
results of magnitude at least this round to infinity (results below it
round to a finite double, at most `f64::MAX`). -/
def f64OVER : ℚ := 179769313486231580793728971405303415079934132710037826936173778980444968292764750946649017977587207096330286416692887910946555547851940402630657488671505820681908902000708383676273854845817711531764475730270069855571366959622842914819860834936475292719074168444365510704342711559699508093042880177904174497792

def F64.isNan : F64 → Bool
  | .nan => true
  | _ => false

/-- `f64` subtraction of two finite doubles: the exact difference, or the
signed infinity on overflow. -/
def F64.sub (a b : ℚ) : F64 :=
  if a - b ≥ f64OVER then .inf false
  else if a - b ≤ -f64OVER then .inf true
  else .finite (a - b)

/-- `f64` multiplication.  `inf * 0` (either order) is NaN; every other
product of non-NaN operands is the exact product or the correctly signed
infinity on overflow. -/
def F64.mul : F64 → F64 → F64
  | .nan, _ => .nan
  | _, .nan => .nan
  | .inf s, .inf t => .inf (xor s t)
  | .inf s, .finite q => if q = 0 then .nan else .inf (xor s (decide (q < 0)))
  | .finite q, .inf t => if q = 0 then .nan else .inf (xor (decide (q < 0)) t)
  | .finite a, .finite b =>
    if a * b ≥ f64OVER then .inf false
    else if a * b ≤ -f64OVER then .inf true
    else .finite (a * b)

/-- `f64::partial_cmp`: `None` exactly when an operand is NaN — the path
on which the pocket sort comparator and the perimeter `max_by` comparator
unwraps panic — and the total order `-inf < finite < inf` otherwise. -/
def f64Cmp : F64 → F64 → Option Ordering
  | .nan, _ => none
  | _, .nan => none
  | .inf s, .inf t =>
    some (if s = t then Ordering.eq else if s then Ordering.lt else Ordering.gt)
  | .inf s, .finite _ => some (if s then Ordering.lt else Ordering.gt)
  | .finite _, .inf t => some (if t then Ordering.gt else Ordering.lt)
  | .finite a, .finite b => some (compare a b)

/-- The perimeter `max_by` comparator's area computation evaluated in
`f64`: `contour.bounds().map_or(0.0, |b| (b.max.x - b.min.x) * (b.max.y -
b.min.y))`.  The bounding box itself is exact (min/max of finite doubles
never round), so only the subtraction and multiplication carry `f64`
semantics. -/
def polyAreaF64 (p : Polyline) : F64 :=
  match p.bounds with
  | none => F64.finite 0
  | some bb => F64.mul (F64.sub bb.max.x bb.min.x) (F64.sub bb.max.y bb.min.y)

/-- `contours.iter().max_by(..)` with the source's `partial_cmp(&area_b)
.unwrap()` comparator kept partial: the outer `none` models the unwrap
panic (and propagates), `some none` the empty iterator, and the fold keeps
the later element on ties exactly as `max_by` does. -/
def maxByAreaIEEE (contours : List Polyline) : Option (Option Polyline) :=
  contours.foldl
    (fun acc c =>
      match acc with
      | none => none
      | some none => some (some c)
      | some (some m) =>
        match f64Cmp (polyAreaF64 m) (polyAreaF64 c) with
        | none => none
        | some o => if o = Ordering.gt then some (some m) else some (some c))
    (some none)

/-- A polyline whose coordinates are all finite, exactly representable
doubles, but whose bounding box spans the full double range in X and is
degenerate in Y: its `f64` area is `inf * 0 = NaN`. -/
def pWide : Polyline := ⟨[⟨-f64MAX, 0⟩, ⟨f64MAX, 0⟩], false⟩

/-- A second, innocent contour, so that `max_by` actually evaluates the
comparator. -/
def pUnit : Polyline := ⟨[⟨0, 0⟩], false⟩

-- ── Ball-end offset (toolpath.rs), exact over ℝ ──────────────────────

/-- `ball_end_offset(normal, radius)`, embedded exactly over `ℝ` (the
normal's components are the three arguments).  This is the computation
abstracted as `RealOps.ballOff` in the rational pipeline. -/
noncomputable def ball_end_offset (nx ny nz radius : ℝ) : ℝ × ℝ × ℝ :=
  if Real.sqrt (nx * nx + ny * ny + nz * nz) < 1 / 10 ^ 10 then (0, 0, 0)
  else (radius * (nx / Real.sqrt (nx * nx + ny * ny + nz * nz)),
        radius * (ny / Real.sqrt (nx * nx + ny * ny + nz * nz)),
        radius * (1 - nz / Real.sqrt (nx * nx + ny * ny + nz * nz)))

-- ── Generic helper lemmas ────────────────────────────────────────────

/-- "Every move list in sight here starts (if non-empty) with a rapid." -/
def headRapid (l : List ToolpathMove) : Prop :=
  ∀ mv, l.head? = some mv → mv.rapid = true

theorem headRapid_append {a b : List ToolpathMove} (ha : headRapid a) (hb : headRapid b) :
    headRapid (a ++ b) := by
  cases a with
  | nil => simpa using hb
  | cons x xs => intro mv hmv; exact ha mv (by simpa using hmv)

theorem headRapid_nil : headRapid [] := by intro mv h; simp at h

-- ── Claim C4: ball-end offset formula ────────────────────────────────

/-- **C4.** `ball_end_offset` returns, for a normal of length at least
`1e-10`, the displacement `(R·n̂x, R·n̂y, R·(1 − n̂z))` of the normalized
normal; for shorter normals it returns `(0,0,0)`; at the normal `(0,0,1)`
the displacement vanishes; and for a unit normal and radius `R ≥ 0` the XY
displacement magnitude is `R·√(1 − nz²)`. -/
theorem ball_end_offset_spec :
    (∀ nx ny nz radius : ℝ,
        1 / 10 ^ 10 ≤ Real.sqrt (nx * nx + ny * ny + nz * nz) →
        ball_end_offset nx ny nz radius =
          (radius * (nx / Real.sqrt (nx * nx + ny * ny + nz * nz)),
           radius * (ny / Real.sqrt (nx * nx + ny * ny + nz * nz)),
           radius * (1 - nz / Real.sqrt (nx * nx + ny * ny + nz * nz)))) ∧
    (∀ nx ny nz radius : ℝ,
        Real.sqrt (nx * nx + ny * ny + nz * nz) < 1 / 10 ^ 10 →
        ball_end_offset nx ny nz radius = (0, 0, 0)) ∧
    (∀ radius : ℝ, ball_end_offset 0 0 1 radius = (0, 0, 0)) ∧
    (∀ nx ny nz radius : ℝ, nx * nx + ny * ny + nz * nz = 1 → 0 ≤ radius →
        Real.sqrt ((ball_end_offset nx ny nz radius).1 ^ 2 +
            (ball_end_offset nx ny nz radius).2.1 ^ 2) =
          radius * Real.sqrt (1 - nz ^ 2)) := by
  refine ⟨?_, ?_, ?_, ?_⟩
  · intro nx ny nz radius h
    rw [ball_end_offset, if_neg (not_lt.mpr h)]
  · intro nx ny nz radius h
    rw [ball_end_offset, if_pos h]
  · intro radius
    have h1 : (0 : ℝ) * 0 + 0 * 0 + 1 * 1 = 1 := by norm_num
    rw [ball_end_offset, h1, Real.sqrt_one, if_neg (by norm_num)]
    norm_num
  · intro nx ny nz radius h1 hr
    have hlen : Real.sqrt (nx * nx + ny * ny + nz * nz) = 1 := by
      rw [h1, Real.sqrt_one]
    rw [ball_end_offset, hlen, if_neg (by norm_num)]
    have hxy : (radius * (nx / 1)) ^ 2 + (radius * (ny / 1)) ^ 2 =
        radius ^ 2 * (1 - nz ^ 2) := by
      have : nx * nx + ny * ny = 1 - nz ^ 2 := by nlinarith [h1]
      field_simp
      nlinarith [this]
    simp only
    rw [hxy, Real.sqrt_mul (sq_nonneg radius), Real.sqrt_sq hr]

/-- Witness for C4: at the flat-surface normal `(0,0,1)` with radius 3 the
offset vanishes and the XY displacement magnitude equals `3·√(1 − 1²)`. -/
theorem ball_end_offset_spec_w :
    ball_end_offset 0 0 1 3 = (0, 0, 0) ∧
    Real.sqrt ((ball_end_offset 0 0 1 3).1 ^ 2 + (ball_end_offset 0 0 1 3).2.1 ^ 2) =
      3 * Real.sqrt (1 - 1 ^ 2) :=
  ⟨ball_end_offset_spec.2.2.1 3,
   ball_end_offset_spec.2.2.2 0 0 1 3 (by norm_num) (by norm_num)⟩


-- ── Chainer safety lemmas ────────────────────────────────────────────

/-- Number of still-unused segments in the chainer state. -/
def unusedCount (st : ChainState) : ℕ := st.countP fun p => !p.2

theorem findMatch_spec : ∀ (st : ChainState) (tail : Vec2) (j : ℕ) (p : Vec2),
    findMatch tail st = some (j, p) → ∃ s, st[j]? = some (s, false) := by
  intro st
  induction st with
  | nil => intro tail j p h; simp [findMatch] at h
  | cons su rest ih =>
    intro tail j p h
    obtain ⟨s, u⟩ := su
    simp only [findMatch] at h
    split at h
    · rename_i hcond
      obtain ⟨hj, hp⟩ := Prod.mk.injEq .. ▸ Option.some.inj h
      exact ⟨s, by simp [← hj, hcond.1]⟩
    · split at h
      · rename_i hcond
        obtain ⟨hj, hp⟩ := Prod.mk.injEq .. ▸ Option.some.inj h
        exact ⟨s, by simp [← hj, hcond.1]⟩
      · obtain ⟨⟨j', p'⟩, hfm, heq⟩ := Option.map_eq_some'.mp h
        obtain ⟨s', hs'⟩ := ih tail j' p' hfm
        obtain ⟨hj, hp⟩ := Prod.mk.injEq .. ▸ heq
        refine ⟨s', ?_⟩
        simp only [← hj]
        simpa using hs'

theorem findMatch_none_of_no_unused : ∀ (st : ChainState) (tail : Vec2),
    unusedCount st = 0 → findMatch tail st = none := by
  intro st
  induction st with
  | nil => intro tail _; rfl
  | cons su rest ih =>
    intro tail h
    obtain ⟨s, u⟩ := su
    simp only [unusedCount, List.countP_cons] at h
    have hu : u = true := by
      cases u
      · simp at h
      · rfl
    have hrest : unusedCount rest = 0 := by
      simp only [unusedCount]
      omega
    simp only [findMatch, hu]
    rw [ih tail hrest]
    simp

theorem unusedCount_set : ∀ (st : ChainState) (j : ℕ) (s s' : Segment2),
    st[j]? = some (s, false) →
    unusedCount (st.set j (s', true)) < unusedCount st := by
  intro st
  induction st with
  | nil => intro j s s' h; simp at h
  | cons su rest ih =>
    intro j s s' h
    cases j with
    | zero =>
      have hsu : su = (s, false) := by simpa using h
      subst hsu
      simp [unusedCount, List.countP_cons]
    | succ n =>
      have h' : rest[n]? = some (s, false) := by simpa using h
      have hlt := ih n s s' h'
      obtain ⟨s0, u0⟩ := su
      simp only [List.set, unusedCount, List.countP_cons]
      simp only [unusedCount] at hlt
      omega

theorem chainInnerGo_spec : ∀ (fuel : ℕ) (st : ChainState) (chain : List Vec2),
    chain ≠ [] → unusedCount st ≤ fuel →
    ∃ chain2 st2, chainInnerGo fuel st chain = some (chain2, st2) ∧
      chain2 ≠ [] ∧ st2.length = st.length := by
  intro fuel
  induction fuel with
  | zero =>
    intro st chain hne hcount
    obtain ⟨tail, htail⟩ := Option.isSome_iff_exists.mp (List.getLast?_isSome.mpr hne)
    have h0 : unusedCount st = 0 := Nat.le_zero.mp hcount
    simp only [chainInnerGo, htail, findMatch_none_of_no_unused st tail h0]
    exact ⟨chain, st, rfl, hne, rfl⟩
  | succ fuel ih =>
    intro st chain hne hcount
    obtain ⟨tail, htail⟩ := Option.isSome_iff_exists.mp (List.getLast?_isSome.mpr hne)
    simp only [chainInnerGo, htail]
    cases hfm : findMatch tail st with
    | none => exact ⟨chain, st, rfl, hne, rfl⟩
    | some jp =>
      obtain ⟨j, nx⟩ := jp
      obtain ⟨s, hget⟩ := findMatch_spec st tail j nx hfm
      simp only [hget]
      have hlt := unusedCount_set st j s s hget
      have hcount' : unusedCount (st.set j (s, true)) ≤ fuel := by omega
      obtain ⟨c2, s2, heq, hc2, hl2⟩ := ih (st.set j (s, true)) (chain ++ [nx]) (by simp) hcount'
      exact ⟨c2, s2, heq, hc2, by rw [hl2]; simp⟩

theorem chainOuter_isSome : ∀ (idxs : List ℕ) (st : ChainState),
    (∀ i ∈ idxs, i < st.length) → (chainOuter st idxs).isSome = true := by
  intro idxs
  induction idxs with
  | nil => intro st _; rfl
  | cons idx rest ih =>
    intro st hlt
    have hidx : idx < st.length := hlt idx (by simp)
    have hget : st[idx]? = some st[idx] := List.getElem?_eq_getElem hidx
    rcases hp : st[idx] with ⟨s, u⟩
    rw [hp] at hget
    simp only [chainOuter, hget]
    cases u with
    | true => exact ih st fun i hi => hlt i (List.mem_cons_of_mem _ hi)
    | false =>
      have hlen1 : (st.set idx (s, true)).length = st.length := by simp
      have hcount : unusedCount (st.set idx (s, true)) ≤ (st.set idx (s, true)).length :=
        List.countP_le_length _
      obtain ⟨chain, st2, heq, hcne, hlen2⟩ :=
        chainInnerGo_spec (st.set idx (s, true)).length (st.set idx (s, true))
          [s.a, s.b] (by simp) hcount
      simp only [chainInner, heq]
      obtain ⟨h0, hh0⟩ := Option.isSome_iff_exists.mp (by simp [hcne] : chain.head?.isSome = true)
      obtain ⟨hl, hhl⟩ := Option.isSome_iff_exists.mp (List.getLast?_isSome.mpr hcne)
      simp only [hh0, hhl]
      have := ih st2 fun i hi => by
        rw [hlen2, hlen1]; exact hlt i (List.mem_cons_of_mem _ hi)
      simpa using this

theorem chain_segments_isSome (segments : List Segment2) :
    (chain_segments segments).isSome = true := by
  unfold chain_segments
  split
  · rfl
  · exact chainOuter_isSome (List.range segments.length) (segments.map fun s => (s, false))
      fun i hi => by simpa using List.mem_range.mp hi

-- ── Claim C9: panic-freedom of the named unwrap sites ────────────────

/-- When every area fed to the perimeter `max_by` comparator is the exact
finite value, the partial (`f64`) fold never hits the unwrap panic and
agrees with the exact-rational fold, element by element. -/
theorem maxByAreaIEEE_cons : ∀ (l : List Polyline) (m : Polyline),
    polyAreaF64 m = F64.finite (polyArea m) →
    (∀ c ∈ l, polyAreaF64 c = F64.finite (polyArea c)) →
    maxByAreaIEEE (m :: l) = some (maxByArea (m :: l)) := by
  intro l
  induction l with
  | nil => intro m _ _; rfl
  | cons c rest ih =>
    intro m hm hall
    have hc : polyAreaF64 c = F64.finite (polyArea c) := hall c (by simp)
    have hstep1 : maxByAreaIEEE (m :: c :: rest) =
        maxByAreaIEEE ((if compare (polyArea m) (polyArea c) = Ordering.gt
          then m else c) :: rest) := by
      unfold maxByAreaIEEE
      simp only [List.foldl_cons, hm, hc, f64Cmp]
      by_cases hgt : compare (polyArea m) (polyArea c) = Ordering.gt
      · simp [hgt]
      · simp [hgt]
    have hstep2 : maxByArea (m :: c :: rest) =
        maxByArea ((if compare (polyArea m) (polyArea c) = Ordering.gt
          then m else c) :: rest) := by
      unfold maxByArea
      simp only [List.foldl_cons]
      by_cases hgt : compare (polyArea m) (polyArea c) = Ordering.gt
      · simp [hgt]
      · simp [hgt]
    rw [hstep1, hstep2]
    by_cases hgt : compare (polyArea m) (polyArea c) = Ordering.gt
    · rw [if_pos hgt]
      exact ih m hm fun d hd => hall d (List.mem_cons_of_mem _ hd)
    · rw [if_neg hgt]
      exact ih c hc fun d hd => hall d (List.mem_cons_of_mem _ hd)

/-- **C9 (amended).** Panic-freedom of the named unwrap sites, as far as
it holds.  (1) The chainer's `chain.last().unwrap()` never panics: the
chainer always returns a value.  (2) The pocket sort and perimeter
`max_by` comparators (`partial_cmp(..).unwrap()`) succeed exactly when
neither compared `f64` value is NaN.  (3) The perimeter area is the exact
finite value whenever the bounding box's width, height and their product
stay below the `f64` overflow threshold.  (4) Under that condition the
whole `max_by` evaluation never reaches the unwrap panic and agrees with
the exact-rational embedding used by the other claims.  The original
unconditional claim is false: finite coordinates can drive the area to
`inf * 0 = NaN` (see the counterexample). -/
theorem unwrap_safety :
    (∀ segments : List Segment2, (chain_segments segments).isSome = true) ∧
    (∀ a b : F64, (f64Cmp a b).isSome = true ↔
      (a.isNan = false ∧ b.isNan = false)) ∧
    (∀ (p : Polyline) (bb : BoundingBox2), p.bounds = some bb →
      |bb.max.x - bb.min.x| < f64OVER → |bb.max.y - bb.min.y| < f64OVER →
      |(bb.max.x - bb.min.x) * (bb.max.y - bb.min.y)| < f64OVER →
      polyAreaF64 p = F64.finite (polyArea p)) ∧
    (∀ contours : List Polyline,
      (∀ c ∈ contours, polyAreaF64 c = F64.finite (polyArea c)) →
      maxByAreaIEEE contours = some (maxByArea contours)) := by
  refine ⟨chain_segments_isSome, ?_, ?_, ?_⟩
  · intro a b
    cases a <;> cases b <;> simp [f64Cmp, F64.isNan]
  · intro p bb hbb h1 h2 h3
    have hw := abs_lt.mp h1
    have hh := abs_lt.mp h2
    have hp := abs_lt.mp h3
    have hsx : F64.sub bb.max.x bb.min.x = F64.finite (bb.max.x - bb.min.x) := by
      unfold F64.sub
      rw [if_neg (not_le.mpr hw.2), if_neg (not_le.mpr hw.1)]
    have hsy : F64.sub bb.max.y bb.min.y = F64.finite (bb.max.y - bb.min.y) := by
      unfold F64.sub
      rw [if_neg (not_le.mpr hh.2), if_neg (not_le.mpr hh.1)]
    unfold polyAreaF64 polyArea
    rw [hbb]
    simp only [hsx, hsy, F64.mul]
    rw [if_neg (not_le.mpr hp.2), if_neg (not_le.mpr hp.1)]
  · intro contours hall
    cases contours with
    | nil => rfl
    | cons c0 rest =>
      exact maxByAreaIEEE_cons rest c0 (hall c0 (by simp))
        fun d hd => hall d (List.mem_cons_of_mem _ hd)

/-- Witness for the amended C9 at concrete inputs: the comparator on two
finite values, the exact area of the innocent one-point contour, and
`max_by` over it. -/
theorem unwrap_safety_w :
    (f64Cmp (F64.finite 1) (F64.finite 2)).isSome = true ∧
    polyAreaF64 pUnit = F64.finite (polyArea pUnit) ∧
    maxByAreaIEEE [pUnit] = some (maxByArea [pUnit]) :=
  ⟨(unwrap_safety.2.1 (F64.finite 1) (F64.finite 2)).mpr ⟨rfl, rfl⟩,
   unwrap_safety.2.2.1 pUnit ⟨⟨0, 0⟩, ⟨0, 0⟩⟩ (by decide) (by decide) (by decide)
     (by decide),
   unwrap_safety.2.2.2 [pUnit] fun c hc => by
     have he : c = pUnit := by simpa using hc
     rw [he]; decide⟩

/-- **C9, counterexample.** A well-formed input on which the perimeter
`max_by` comparator is evaluated in a state where it does not succeed:
every coordinate of `pWide` and `pUnit` is a finite double (magnitude at
most `f64::MAX`), yet `pWide`'s `f64` bounding-rectangle area is
`(f64MAX - (-f64MAX)) * (0 - 0) = inf * 0 = NaN`, so on the contour list
`[pWide, pUnit]` the `max_by` fold reaches `partial_cmp(..).unwrap()` on
`None` — the unwrap panic — refuting the unconditional claim. -/
theorem unwrap_safety_cex :
    |(-f64MAX : ℚ)| ≤ f64MAX ∧ |(f64MAX : ℚ)| ≤ f64MAX ∧ |(0 : ℚ)| ≤ f64MAX ∧
    polyAreaF64 pWide = F64.nan ∧
    f64Cmp (polyAreaF64 pWide) (polyAreaF64 pUnit) = none ∧
    maxByAreaIEEE [pWide, pUnit] = none := by
  refine ⟨by decide, by decide, by decide, by decide, by decide, by decide⟩

-- ── Claim C1: closed-polyline closure ────────────────────────────────

/-- Every polyline published by the outer chaining loop arises as
`publishChain` of some chain with recorded head and last point. -/
theorem chainOuter_shape : ∀ (idxs : List ℕ) (st : ChainState) (polys : List Polyline),
    chainOuter st idxs = some polys → ∀ pl ∈ polys,
    ∃ (chain : List Vec2) (h0 hl : Vec2),
      chain.head? = some h0 ∧ chain.getLast? = some hl ∧ pl = publishChain chain h0 hl := by
  intro idxs
  induction idxs with
  | nil =>
    intro st polys h pl hpl
    simp only [chainOuter] at h
    obtain rfl := Option.some.inj h
    simp at hpl
  | cons idx rest ih =>
    intro st polys h pl hpl
    simp only [chainOuter] at h
    cases hget : st[idx]? with
    | none => rw [hget] at h; exact absurd h (by simp)
    | some su =>
      obtain ⟨s, u⟩ := su
      rw [hget] at h
      cases u with
      | true => exact ih st polys h pl hpl
      | false =>
        simp only at h
        cases hin : chainInner (st.set idx (s, true)) [s.a, s.b] with
        | none => rw [hin] at h; exact absurd h (by simp)
        | some cs =>
          obtain ⟨chain, st2⟩ := cs
          rw [hin] at h
          simp only at h
          cases hh0 : chain.head? with
          | none => rw [hh0] at h; exact absurd h (by simp)
          | some h0 =>
            cases hhl : chain.getLast? with
            | none => rw [hh0, hhl] at h; exact absurd h (by simp)
            | some hl =>
              rw [hh0, hhl] at h
              obtain ⟨ps, hps, hcons⟩ := Option.map_eq_some'.mp h
              subst hcons
              rcases List.mem_cons.mp hpl with hhead | htail
              · exact ⟨chain, h0, hl, hh0, hhl, hhead⟩
              · exact ih st2 ps hps pl htail

/-- **C1 (amended).** Every *closed* polyline produced by the chainer is a
chain whose head and tail coincided within the tolerance `ε = 1e-6`
(`dist² < ε²`), with the duplicate tail point dropped: its `points` are
`chain.dropLast` for such a chain.  (As stated, the claim is false — after
the drop, `points[0]` and `points[-1]` are in general far apart; see the
counterexample.) -/
theorem chainer_closed_within_eps (segments : List Segment2) (polys : List Polyline)
    (hc : chain_segments segments = some polys) :
    ∀ pl ∈ polys, pl.closed = true →
    ∃ (chain : List Vec2) (h0 hl : Vec2),
      chain.head? = some h0 ∧ chain.getLast? = some hl ∧
      2 < chain.length ∧ Vec2.dist2 h0 hl < epsChain2 ∧
      pl.points = chain.dropLast := by
  intro pl hpl hclosed
  unfold chain_segments at hc
  split at hc
  · obtain rfl := Option.some.inj hc
    simp at hpl
  · obtain ⟨chain, h0, hl, hh0, hhl, hpub⟩ := chainOuter_shape _ _ _ hc pl hpl
    refine ⟨chain, h0, hl, hh0, hhl, ?_⟩
    unfold publishChain at hpub
    split at hpub
    · rename_i hcond
      exact ⟨hcond.1, hcond.2, by rw [hpub]⟩
    · rw [hpub] at hclosed
      simp at hclosed

/-- Four unit-square edge segments fed to the chainer. -/
def segsSq : List Segment2 :=
  [⟨⟨0,0⟩,⟨1,0⟩⟩, ⟨⟨1,0⟩,⟨1,1⟩⟩, ⟨⟨1,1⟩,⟨0,1⟩⟩, ⟨⟨0,1⟩,⟨0,0⟩⟩]

/-- The closed polyline the chainer produces from `segsSq`. -/
def polySq : Polyline := ⟨[⟨0,0⟩,⟨1,0⟩,⟨1,1⟩,⟨0,1⟩], true⟩

/-- **C1, counterexample.** Chaining the four unit-square edges yields a
single *closed* polyline whose first and last stored points are the two
corners `(0,0)` and `(0,1)`: their distance is `1`, far beyond the `1e-6`
tolerance (`dist² = 1 > (1e-6)²`), because the duplicate closing point was
dropped.  So "dist(points[0], points[-1]) ≤ ε for every closed polyline"
fails as stated. -/
theorem chainer_closure_cex :
    chain_segments segsSq = some [polySq] ∧
    polySq.closed = true ∧
    ¬ Vec2.dist2 (polySq.points.headD ⟨0,0⟩) (polySq.points.getLastD ⟨0,0⟩) ≤ epsChain2 := by
  refine ⟨by decide, rfl, by decide⟩

/-- Witness for the amended C1 at the concrete square input. -/
theorem chainer_closed_within_eps_w :
    chain_segments segsSq = some [polySq] ∧
    (∃ (chain : List Vec2) (h0 hl : Vec2),
      chain.head? = some h0 ∧ chain.getLast? = some hl ∧
      2 < chain.length ∧ Vec2.dist2 h0 hl < epsChain2 ∧
      polySq.points = chain.dropLast) :=
  ⟨by decide,
   chainer_closed_within_eps segsSq [polySq] (by decide) polySq (by decide) rfl⟩

-- ── Claim C5: slicer layer scheduling ────────────────────────────────

theorem sliceGo_elem (mesh : Mesh) (lh z_max : ℚ) :
    ∀ (fuel : ℕ) (z : ℚ) (p : ℚ × List Polyline), p ∈ sliceGo mesh lh z_max fuel z →
      p.1 ≤ z_max ∧ ∃ k : ℕ, p.1 = z + k * lh := by
  intro fuel
  induction fuel with
  | zero => intro z p hp; simp [sliceGo] at hp
  | succ fuel ih =>
    intro z p hp
    simp only [sliceGo] at hp
    split at hp
    · rename_i hle
      split at hp
      · obtain ⟨hle2, k, hk⟩ := ih (z + lh) p hp
        exact ⟨hle2, k + 1, by push_cast; linarith⟩
      · rcases List.mem_cons.mp hp with rfl | htail
        · exact ⟨hle, 0, by push_cast; ring⟩
        · obtain ⟨hle2, k, hk⟩ := ih (z + lh) p htail
          exact ⟨hle2, k + 1, by push_cast; linarith⟩
    · simp at hp

theorem sliceGo_chain (mesh : Mesh) (lh z_max : ℚ) :
    ∀ (fuel : ℕ) (z : ℚ),
      List.Chain' (fun p q => ∃ k : ℕ, 0 < k ∧ q.1 = p.1 + k * lh)
        (sliceGo mesh lh z_max fuel z) := by
  intro fuel
  induction fuel with
  | zero => intro z; simp [sliceGo]
  | succ fuel ih =>
    intro z
    simp only [sliceGo]
    split
    · split
      · exact ih (z + lh)
      · refine List.chain'_cons'.mpr ⟨?_, ih (z + lh)⟩
        intro q hq
        have hmem : q ∈ sliceGo mesh lh z_max fuel (z + lh) := List.mem_of_mem_head? hq
        obtain ⟨_, k, hk⟩ := sliceGo_elem mesh lh z_max fuel (z + lh) q hmem
        exact ⟨k + 1, Nat.succ_pos k, by push_cast; linarith⟩
    · simp

theorem sliceGo_complete (mesh : Mesh) (lh z_max : ℚ) (hh : 0 < lh) :
    ∀ (fuel k : ℕ) (z : ℚ), k < fuel → z + k * lh ≤ z_max →
      (slice_at_z mesh (z + k * lh)).isEmpty = false →
      (z + k * lh, slice_at_z mesh (z + k * lh)) ∈ sliceGo mesh lh z_max fuel z := by
  intro fuel
  induction fuel with
  | zero => intro k z hk; omega
  | succ fuel ih =>
    intro k z hk hle hne
    have hz : z ≤ z_max := by
      have : (0:ℚ) ≤ k * lh := by positivity
      linarith
    simp only [sliceGo]
    rw [if_pos hz]
    cases k with
    | zero =>
      simp only [Nat.cast_zero, zero_mul, add_zero] at hle hne ⊢
      rw [hne]
      simp
    | succ k =>
      have heq : z + (k + 1 : ℕ) * lh = (z + lh) + k * lh := by push_cast; ring
      rw [heq] at hle hne ⊢
      have hmem := ih k (z + lh) (by omega) hle hne
      split
      · exact hmem
      · exact List.mem_cons_of_mem _ hmem

theorem slice_mesh_eq (mesh : Mesh) (b : BoundingBox) (lh : ℚ) (hb : mesh.bounds = some b) :
    slice_mesh mesh lh =
      sliceGo mesh lh b.max.z
        ((⌈(b.max.z - (b.min.z + lh * (1/2))) / lh⌉ + 1).toNat)
        (b.min.z + lh * (1/2)) := by
  unfold slice_mesh
  rw [hb]

/-- **C5 (amended).** For a mesh with bounds and layer height `h > 0`, every
emitted layer sits at `z = zmin + h/2 + k·h` for some `k`, with
`zmin ≤ z ≤ zmax`; successive emitted `z` values differ by a *positive
multiple* of `h` (not necessarily exactly `h`: interior layers whose plane
meets no triangle are omitted, see the counterexample); and every scheduled
`z ≤ zmax` whose slice is non-empty is in fact emitted. -/
theorem slice_mesh_schedule (mesh : Mesh) (b : BoundingBox) (lh : ℚ)
    (hb : mesh.bounds = some b) (hh : 0 < lh) :
    (∀ p ∈ slice_mesh mesh lh,
       b.min.z ≤ p.1 ∧ p.1 ≤ b.max.z ∧ ∃ k : ℕ, p.1 = b.min.z + lh/2 + k * lh) ∧
    List.Chain' (fun p q => ∃ k : ℕ, 0 < k ∧ q.1 = p.1 + k * lh) (slice_mesh mesh lh) ∧
    (∀ k : ℕ, b.min.z + lh/2 + k * lh ≤ b.max.z →
       (slice_at_z mesh (b.min.z + lh/2 + k * lh)).isEmpty = false →
       (b.min.z + lh/2 + k * lh, slice_at_z mesh (b.min.z + lh/2 + k * lh))
         ∈ slice_mesh mesh lh) := by
  have hzmin : b.min.z + lh * (1/2) = b.min.z + lh/2 := by ring
  refine ⟨?_, ?_, ?_⟩
  · intro p hp
    rw [slice_mesh_eq mesh b lh hb] at hp
    obtain ⟨hle, k, hk⟩ := sliceGo_elem mesh lh b.max.z _ _ p hp
    rw [hzmin] at hk
    refine ⟨?_, hle, k, hk⟩
    have : (0:ℚ) ≤ k * lh := by positivity
    rw [hk]
    linarith
  · rw [slice_mesh_eq mesh b lh hb]
    exact sliceGo_chain mesh lh b.max.z _ _
  · intro k hk hne
    rw [slice_mesh_eq mesh b lh hb]
    have hkq : ((k : ℚ)) ≤ (b.max.z - (b.min.z + lh * (1/2))) / lh := by
      rw [le_div_iff₀ hh]
      rw [hzmin]
      linarith
    have hkz : (k : ℤ) ≤ ⌈(b.max.z - (b.min.z + lh * (1/2))) / lh⌉ := by
      have := le_trans hkq (Int.le_ceil _)
      exact_mod_cast this
    have hfuel : k < ((⌈(b.max.z - (b.min.z + lh * (1/2))) / lh⌉ + 1).toNat) := by
      rw [Int.lt_toNat]
      omega
    have := sliceGo_complete mesh lh b.max.z hh _ k (b.min.z + lh * (1/2)) hfuel
      (by rw [hzmin]; linarith) (by rw [hzmin]; exact hne)
    rw [hzmin] at this
    exact this

/-- Two triangles spanning `z ∈ [0,1]` and `z ∈ [4,5]`, leaving a gap in
between; the mesh Z extent is `[0,5]`. -/
def meshGap : Mesh := Mesh.new
  [⟨⟨0,0,1⟩, ⟨0,0,0⟩, ⟨2,0,1⟩, ⟨0,2,1⟩⟩,
   ⟨⟨0,0,1⟩, ⟨0,0,4⟩, ⟨2,0,5⟩, ⟨0,2,5⟩⟩]

/-- **C5, counterexample.** Slicing `meshGap` at layer height `1` emits
layers only at `z = 1/2` and `z = 9/2` (the planes at `3/2, 5/2, 7/2` meet
no triangle and are omitted): the two successive emitted `z` values differ
by `4`, not by the layer height `1`.  So "successive emitted z values
differ by exactly h" fails as stated. -/
theorem slice_mesh_schedule_cex :
    (slice_mesh meshGap 1).map Prod.fst = [1/2, 9/2] ∧
    ((9:ℚ)/2) - 1/2 ≠ 1 := by
  refine ⟨by decide, by decide⟩

/-- Witness for the amended C5 on `meshGap`: the layer at `9/2` is emitted,
lies within the Z extent `[0,5]`, and sits on the half-offset grid. -/
theorem slice_mesh_schedule_w :
    meshGap.bounds = some ⟨⟨0,0,0⟩,⟨2,2,5⟩⟩ ∧
    (∃ p ∈ slice_mesh meshGap 1, p.1 = 9/2) ∧
    ((0:ℚ) ≤ 9/2 ∧ (9:ℚ)/2 ≤ 5) := by
  have hb : meshGap.bounds = some ⟨⟨0,0,0⟩,⟨2,2,5⟩⟩ := by decide
  have hmem : ((9:ℚ)/2, slice_at_z meshGap (9/2)) ∈ slice_mesh meshGap 1 := by
    have h45 : (0:ℚ) + 1/2 + (4:ℕ) * 1 = 9/2 := by norm_num
    have := (slice_mesh_schedule meshGap ⟨⟨0,0,0⟩,⟨2,2,5⟩⟩ 1 hb (by norm_num)).2.2 4
      (by norm_num) (by rw [show (0:ℚ) + 1/2 + ((4:ℕ):ℚ) * 1 = 9/2 by push_cast; norm_num]; decide)
    rw [show (0:ℚ) + 1/2 + ((4:ℕ):ℚ) * 1 = 9/2 by push_cast; norm_num] at this
    exact this
  exact ⟨hb, ⟨_, hmem, rfl⟩, by norm_num, by norm_num⟩

-- ── Claim C7: the 2-D depth-step loop ────────────────────────────────

theorem depthZsGo_get (cd sd : ℚ) :
    ∀ (fuel : ℕ) (z : ℚ) (k : ℕ) (x : ℚ), (depthZsGo cd sd fuel z)[k]? = some x →
      x = max cd (z - ((k : ℚ) + 1) * sd) := by
  intro fuel
  induction fuel with
  | zero => intro z k x hx; simp [depthZsGo] at hx
  | succ fuel ih =>
    intro z k x hx
    simp only [depthZsGo] at hx
    by_cases hguard : cd - 1/1000 < z
    case neg => rw [if_neg hguard] at hx; simp at hx
    rw [if_pos hguard] at hx
    by_cases hlt : z - sd < cd
    · rw [if_pos hlt, if_pos (by simp : |cd - cd| < (1:ℚ)/1000)] at hx
      cases k with
      | zero =>
        simp only [List.getElem?_cons_zero] at hx
        obtain rfl := Option.some.inj hx
        rw [eq_comm, max_eq_left_iff]
        push_cast
        linarith
      | succ k => simp at hx
    · rw [if_neg hlt] at hx
      have hmax : max cd (z - ((0:ℚ) + 1) * sd) = z - sd := by
        rw [max_eq_right]
        · norm_num
        · rw [not_lt] at hlt; linarith
      by_cases hbr : |z - sd - cd| < 1/1000
      · rw [if_pos hbr] at hx
        cases k with
        | zero =>
          simp only [List.getElem?_cons_zero] at hx
          obtain rfl := Option.some.inj hx
          rw [show ((0:ℕ):ℚ) + 1 = (0:ℚ) + 1 by norm_num, hmax]
        | succ k => simp at hx
      · rw [if_neg hbr] at hx
        cases k with
        | zero =>
          simp only [List.getElem?_cons_zero] at hx
          obtain rfl := Option.some.inj hx
          rw [show ((0:ℕ):ℚ) + 1 = (0:ℚ) + 1 by norm_num, hmax]
        | succ k =>
          simp only [List.getElem?_cons_succ] at hx
          rw [ih (z - sd) k x hx]
          congr 1
          push_cast
          ring

theorem depthZsGo_last (cd sd : ℚ) (hsd : 0 < sd) :
    ∀ (fuel : ℕ) (z : ℚ), cd ≤ z → (z - cd) / sd < (fuel : ℚ) →
      depthZsGo cd sd fuel z ≠ [] ∧
      ∀ zl, (depthZsGo cd sd fuel z).getLast? = some zl →
        cd ≤ zl ∧ zl < cd + 1/1000 := by
  intro fuel
  induction fuel with
  | zero =>
    intro z hz hfuel
    exfalso
    have h0 : (0:ℚ) ≤ (z - cd) / sd := div_nonneg (by linarith) (le_of_lt hsd)
    norm_num at hfuel
    linarith
  | succ fuel ih =>
    intro z hz hfuel
    have hguard : cd - 1/1000 < z := by linarith
    simp only [depthZsGo, if_pos hguard]
    by_cases hlt : z - sd < cd
    · rw [if_pos hlt, if_pos (by simp : |cd - cd| < (1:ℚ)/1000)]
      refine ⟨by simp, ?_⟩
      intro zl hzl
      simp only [List.getLast?_singleton] at hzl
      obtain rfl := Option.some.inj hzl
      constructor <;> norm_num
    · rw [if_neg hlt]
      rw [not_lt] at hlt
      by_cases hbr : |z - sd - cd| < 1/1000
      · rw [if_pos hbr]
        refine ⟨by simp, ?_⟩
        intro zl hzl
        simp only [List.getLast?_singleton] at hzl
        obtain rfl := Option.some.inj hzl
        have h2 := (abs_lt.mp hbr).2
        exact ⟨by linarith, by linarith⟩
      · rw [if_neg hbr]
        have habs : |z - sd - cd| = z - sd - cd := abs_of_nonneg (by linarith)
        have hge : cd + 1/1000 ≤ z - sd := by
          rw [habs] at hbr
          have := not_lt.mp hbr
          linarith
        have hmeas : (z - sd - cd) / sd < (fuel : ℚ) := by
          have heq : (z - sd - cd) / sd = (z - cd) / sd - 1 := by
            field_simp
            ring
          rw [heq]
          push_cast at hfuel
          linarith
        obtain ⟨hne, hlast⟩ := ih (z - sd) (by linarith) hmeas
        refine ⟨by simp, ?_⟩
        intro zl hzl
        cases hr : depthZsGo cd sd fuel (z - sd) with
        | nil => exact absurd hr hne
        | cons a t =>
          rw [hr, List.getLast?_cons_cons] at hzl
          apply hlast
          rw [hr]
          exact hzl

theorem depthZsGo_not_last (cd sd : ℚ) :
    ∀ (fuel : ℕ) (z : ℚ) (k : ℕ) (x : ℚ),
      k + 1 < (depthZsGo cd sd fuel z).length →
      (depthZsGo cd sd fuel z)[k]? = some x → cd + 1/1000 ≤ x := by
  intro fuel
  induction fuel with
  | zero => intro z k x hlen hx; simp [depthZsGo] at hx
  | succ fuel ih =>
    intro z k x hlen hx
    simp only [depthZsGo] at hlen hx
    by_cases hguard : cd - 1/1000 < z
    case neg => rw [if_neg hguard] at hx; simp at hx
    rw [if_pos hguard] at hlen hx
    by_cases hlt : z - sd < cd
    · rw [if_pos hlt, if_pos (by simp : |cd - cd| < (1:ℚ)/1000)] at hlen
      simp at hlen
    · rw [if_neg hlt] at hlen hx
      rw [not_lt] at hlt
      by_cases hbr : |z - sd - cd| < 1/1000
      · rw [if_pos hbr] at hlen
        simp at hlen
      · rw [if_neg hbr] at hlen hx
        have habs : |z - sd - cd| = z - sd - cd := abs_of_nonneg (by linarith)
        have hge : cd + 1/1000 ≤ z - sd := by
          rw [habs] at hbr
          have := not_lt.mp hbr
          linarith
        cases k with
        | zero =>
          simp only [List.getElem?_cons_zero] at hx
          obtain rfl := Option.some.inj hx
          exact hge
        | succ k =>
          simp only [List.length_cons] at hlen
          simp only [List.getElem?_cons_succ] at hx
          exact ih (z - sd) k x (by omega) hx

/-- **C7 (amended).** For `step_down > 0` and `cut_depth ≤ 0` the depth loop
emits at least one layer; layer `k` (0-based) has
`cut_z = max cut_depth (-(k+1)·step_down)` — i.e. `z` steps down from `0` by
`step_down`, clamped at `cut_depth`; every non-final layer is at least
`0.001` above `cut_depth`; the final layer's `cut_z` lies in
`[cut_depth, cut_depth + 0.001)` — *within the loop's 0.001 tolerance of*
`cut_depth`, but not necessarily equal to it (see the counterexample) — and
the loop terminates there; and the orchestrator runs the dispatched
strategy exactly once per layer with `cut_z` set to that layer's value. -/
theorem depth_layers_spec (cd sd : ℚ) (hsd : 0 < sd) (hcd : cd ≤ 0) :
    depthZs cd sd ≠ [] ∧
    (∀ (k : ℕ) (x : ℚ), (depthZs cd sd)[k]? = some x →
        x = max cd (0 - ((k : ℚ) + 1) * sd)) ∧
    (∀ zl, (depthZs cd sd).getLast? = some zl → cd ≤ zl ∧ zl < cd + 1/1000) ∧
    (∀ (k : ℕ) (x : ℚ), k + 1 < (depthZs cd sd).length → (depthZs cd sd)[k]? = some x →
        cd + 1/1000 ≤ x) ∧
    (∀ (ops : RealOps) (polylines : List Polyline) (config : CamConfig),
        build_toolpaths_svg ops polylines config =
          (depthZs config.cut_depth config.step_down).flatMap fun z =>
            strategyGenerate ops config.strategy polylines
              { cutParamsOf config with cut_z := z }) := by
  have hfuelq : (0 - cd) / sd < ((⌈(-cd) / sd⌉.toNat + 2 : ℕ) : ℚ) := by
    have h1 : (0 - cd) / sd ≤ (⌈(-cd) / sd⌉ : ℚ) := by
      rw [zero_sub]
      exact Int.le_ceil _
    have h2 : ((⌈(-cd) / sd⌉ : ℤ) : ℚ) ≤ ((⌈(-cd) / sd⌉.toNat : ℤ) : ℚ) := by
      exact_mod_cast Int.self_le_toNat _
    push_cast at h2 ⊢
    linarith
  obtain ⟨hne, hlast⟩ := depthZsGo_last cd sd hsd (⌈(-cd) / sd⌉.toNat + 2) 0 hcd hfuelq
  exact ⟨hne, fun k x hx => depthZsGo_get cd sd _ 0 k x hx, hlast,
    fun k x hlen hx => depthZsGo_not_last cd sd _ 0 k x hlen hx,
    fun ops polylines config => rfl⟩

/-- **C7, counterexample.** With `cut_depth = -1` and
`step_down = 0.9995`, the first layer lands at `z = -0.9995`, which is
within the loop's `0.001` break tolerance of `cut_depth`, so the loop stops
there: the final (only) layer's `cut_z` is `-0.9995 ≠ -1 = cut_depth`.  So
"the final layer's cut_z equals cut_depth" fails as stated. -/
theorem depth_layers_cex :
    depthZs (-1) (1999/2000) = [-(1999/2000)] ∧ (-(1999/2000) : ℚ) ≠ -1 :=
  ⟨by decide, by decide⟩

/-- Witness for the amended C7 at `cut_depth = -1`, `step_down = 0.9995`:
the final layer is within the tolerance band above the cut depth. -/
theorem depth_layers_spec_w :
    ((-1:ℚ) ≤ -(1999/2000) ∧ (-(1999/2000):ℚ) < -1 + 1/1000) :=
  (depth_layers_spec (-1) (1999/2000) (by norm_num) (by norm_num)).2.2.1
    (-(1999/2000)) (by decide)

-- ── Claim C8: empty mesh ─────────────────────────────────────────────

theorem strategyGenerate_nil (ops : RealOps) (name : String) (params : CutParams) :
    strategyGenerate ops name [] params = [] := by
  unfold strategyGenerate
  split
  · rfl
  · split
    · rfl
    · rfl

/-- **C8.** An empty mesh slices to an empty layer list; the orchestrator
produces an empty toolpath list for *every* strategy (the contour fallback
re-slice also yields nothing); and the emitted G-code is exactly the
preamble followed by the footer, with no motion block in between. -/
theorem empty_mesh_output :
    (∀ lh : ℚ, slice_mesh (Mesh.new []) lh = []) ∧
    (∀ (ops : RealOps) (config : CamConfig),
        build_toolpaths_stl ops (Mesh.new []) config = []) ∧
    (∀ (ops : RealOps) (config : CamConfig) (gp : GcodeParams),
        emit_gcode (build_toolpaths_stl ops (Mesh.new []) config) gp =
          gcodeHeader gp ++ gcodeFooter gp) := by
  have hbuild : ∀ (ops : RealOps) (config : CamConfig),
      build_toolpaths_stl ops (Mesh.new []) config = [] := by
    intro ops config
    unfold build_toolpaths_stl
    split
    · rfl
    · show (if ([] : List Toolpath).isEmpty then _ else _) = _
      rw [if_pos List.isEmpty_nil]
      exact strategyGenerate_nil ops config.strategy _
  refine ⟨fun lh => rfl, hbuild, ?_⟩
  intro ops config gp
  rw [hbuild ops config]
  rfl

-- ── Claim C6: pocket cuts stay inside the inset bounding box ─────────

theorem bb2_foldl_init (pts : List Vec2) : ∀ (init : Vec2 × Vec2),
    (pts.foldl bb2Step init).1.x ≤ init.1.x ∧ (pts.foldl bb2Step init).1.y ≤ init.1.y ∧
    init.2.x ≤ (pts.foldl bb2Step init).2.x ∧ init.2.y ≤ (pts.foldl bb2Step init).2.y := by
  induction pts with
  | nil => intro init; exact ⟨le_refl _, le_refl _, le_refl _, le_refl _⟩
  | cons p rest ih =>
    intro init
    obtain ⟨h1, h2, h3, h4⟩ := ih (bb2Step init p)
    simp only [List.foldl_cons]
    exact ⟨le_trans h1 (min_le_left _ _), le_trans h2 (min_le_left _ _),
      le_trans (le_max_left _ _) h3, le_trans (le_max_left _ _) h4⟩

theorem bb2_foldl_mem (pts : List Vec2) : ∀ (init : Vec2 × Vec2) (p : Vec2), p ∈ pts →
    (pts.foldl bb2Step init).1.x ≤ p.x ∧ p.x ≤ (pts.foldl bb2Step init).2.x ∧
    (pts.foldl bb2Step init).1.y ≤ p.y ∧ p.y ≤ (pts.foldl bb2Step init).2.y := by
  induction pts with
  | nil => intro init p hp; simp at hp
  | cons q rest ih =>
    intro init p hp
    simp only [List.foldl_cons]
    rcases List.mem_cons.mp hp with rfl | htail
    · obtain ⟨h1, h2, h3, h4⟩ := bb2_foldl_init rest (bb2Step init p)
      have m1 : (bb2Step init p).1.x ≤ p.x := min_le_right init.1.x p.x
      have m2 : p.x ≤ (bb2Step init p).2.x := le_max_right init.2.x p.x
      have m3 : (bb2Step init p).1.y ≤ p.y := min_le_right init.1.y p.y
      have m4 : p.y ≤ (bb2Step init p).2.y := le_max_right init.2.y p.y
      exact ⟨le_trans h1 m1, le_trans m2 h3, le_trans h2 m3, le_trans m4 h4⟩
    · exact ih (bb2Step init q) p htail

theorem polyline_bounds_mem (c : Polyline) (b : BoundingBox2) (hb : c.bounds = some b) :
    ∀ p ∈ c.points, b.min.x ≤ p.x ∧ p.x ≤ b.max.x ∧ b.min.y ≤ p.y ∧ p.y ≤ b.max.y := by
  intro p hp
  unfold Polyline.bounds BoundingBox2.from_points at hb
  by_cases hemp : c.points.isEmpty = true
  · rw [if_pos hemp] at hb
    exact absurd hb (by simp)
  · rw [if_neg hemp] at hb
    obtain rfl := Option.some.inj hb
    obtain ⟨h1, h2, h3, h4⟩ := bb2_foldl_mem c.points _ p hp
    exact ⟨h1, h2, h3, h4⟩

theorem scanline_intersect_bounds (c : Polyline) (bb : BoundingBox2) (hb : c.bounds = some bb)
    (y : ℚ) : ∀ x ∈ scanline_intersect c y, bb.min.x ≤ x ∧ x ≤ bb.max.x := by
  intro x hx
  unfold scanline_intersect at hx
  by_cases hn : c.points.length < 2
  · rw [if_pos hn] at hx
    simp at hx
  · rw [if_neg hn] at hx
    obtain ⟨i, hi, hfi⟩ := List.mem_filterMap.mp hx
    have hiN : i < c.points.length := List.mem_range.mp hi
    have hjN : (i + 1) % c.points.length < c.points.length := Nat.mod_lt _ (by omega)
    simp only at hfi
    set a := c.points.getD i ⟨0, 0⟩ with ha_def
    set p2 := c.points.getD ((i + 1) % c.points.length) ⟨0, 0⟩ with hp2_def
    have ha_mem : a ∈ c.points := by
      rw [ha_def, List.getD_eq_getElem c.points _ hiN]
      exact List.getElem_mem hiN
    have hp2_mem : p2 ∈ c.points := by
      rw [hp2_def, List.getD_eq_getElem c.points _ hjN]
      exact List.getElem_mem hjN
    obtain ⟨hax1, hax2, _, _⟩ := polyline_bounds_mem c bb hb a ha_mem
    obtain ⟨hpx1, hpx2, _, _⟩ := polyline_bounds_mem c bb hb p2 hp2_mem
    split at hfi
    · rename_i hcond
      obtain rfl := Option.some.inj hfi
      set t := (y - a.y) / (p2.y - a.y) with ht_def
      have htb : 0 ≤ t ∧ t ≤ 1 := by
        rcases hcond with ⟨h1, h2⟩ | ⟨h1, h2⟩
        · have hd : 0 < p2.y - a.y := by linarith
          constructor
          · exact div_nonneg (by linarith) (le_of_lt hd)
          · rw [ht_def, div_le_one hd]
            linarith
        · have heq : t = (a.y - y) / (a.y - p2.y) := by
            rw [ht_def, ← neg_div_neg_eq]
            ring_nf
          have hd : 0 < a.y - p2.y := by linarith
          rw [heq]
          constructor
          · exact div_nonneg (by linarith) (le_of_lt hd)
          · rw [div_le_one hd]
            linarith
      obtain ⟨ht0, ht1⟩ := htb
      constructor
      · nlinarith [mul_nonneg ht0 (sub_nonneg.mpr hpx1),
          mul_nonneg (sub_nonneg.mpr ht1) (sub_nonneg.mpr hax1)]
      · nlinarith [mul_nonneg ht0 (sub_nonneg.mpr hpx2),
          mul_nonneg (sub_nonneg.mpr ht1) (sub_nonneg.mpr hax2)]
    · exact absurd hfi (by simp)

theorem pocketPairs_bounds (off y safe_z cut_z : ℚ) (fw : Bool) (lo hi : ℚ) :
    ∀ (xs : List ℚ), (∀ x ∈ xs, lo ≤ x ∧ x ≤ hi) →
      ∀ mv ∈ pocketPairs off y safe_z cut_z fw xs,
        (lo + off ≤ mv.x ∧ mv.x ≤ hi - off) ∧ mv.y = y := by
  intro xs
  induction xs using pocketPairs.induct off y safe_z cut_z fw with
  | case1 x0 x1 rest ih =>
    intro hxs mv hmv
    simp only [pocketPairs] at hmv
    obtain ⟨hx0lo, hx0hi⟩ := hxs x0 (by simp)
    obtain ⟨hx1lo, hx1hi⟩ := hxs x1 (by simp)
    rcases List.mem_append.mp hmv with hblk | hrest
    · by_cases hord : x0 + off ≥ x1 - off
      · rw [if_pos hord] at hblk
        simp at hblk
      · rw [if_neg hord] at hblk
        have hord' := not_le.mp hord
        have hse1 : lo + off ≤ (if fw = true then (x0 + off, x1 - off)
            else (x1 - off, x0 + off)).1 ∧
            (if fw = true then (x0 + off, x1 - off) else (x1 - off, x0 + off)).1 ≤ hi - off := by
          cases fw
          · simp only [Bool.false_eq_true, if_false]
            exact ⟨by linarith, by linarith⟩
          · simp only [if_true]
            exact ⟨by linarith, by linarith⟩
        have hse2 : lo + off ≤ (if fw = true then (x0 + off, x1 - off)
            else (x1 - off, x0 + off)).2 ∧
            (if fw = true then (x0 + off, x1 - off) else (x1 - off, x0 + off)).2 ≤ hi - off := by
          cases fw
          · simp only [Bool.false_eq_true, if_false]
            exact ⟨by linarith, by linarith⟩
          · simp only [if_true]
            exact ⟨by linarith, by linarith⟩
        simp only [List.mem_cons, List.mem_singleton, List.not_mem_nil, or_false] at hblk
        rcases hblk with rfl | rfl | rfl | rfl
        · exact ⟨hse1, rfl⟩
        · exact ⟨hse1, rfl⟩
        · exact ⟨hse2, rfl⟩
        · exact ⟨hse2, rfl⟩
    · exact ih (fun x hx => hxs x (by simp [hx])) mv hrest
  | case2 xs h =>
    intro hxs mv hmv
    cases xs with
    | nil => simp [pocketPairs] at hmv
    | cons x0 rest =>
      cases rest with
      | nil => simp [pocketPairs] at hmv
      | cons x1 r2 => exact absurd rfl (h x0 x1 r2)

theorem pocketRowsGo_bounds (c : Polyline) (bb : BoundingBox2) (hb : c.bounds = some bb)
    (off step y_max safe_z cut_z : ℚ) :
    ∀ (fuel : ℕ) (y : ℚ) (fw : Bool), 0 < step →
      ∀ mv ∈ pocketRowsGo c off step y_max safe_z cut_z fuel y fw,
        (bb.min.x + off ≤ mv.x ∧ mv.x ≤ bb.max.x - off) ∧ (y ≤ mv.y ∧ mv.y ≤ y_max) := by
  intro fuel
  induction fuel with
  | zero => intro y fw _ mv hmv; simp [pocketRowsGo] at hmv
  | succ fuel ih =>
    intro y fw hstep mv hmv
    simp only [pocketRowsGo] at hmv
    by_cases hy : y ≤ y_max
    case neg => rw [if_neg hy] at hmv; simp at hmv
    rw [if_pos hy] at hmv
    rcases List.mem_append.mp hmv with hrow | hrest
    · have hxs : ∀ x ∈ (scanline_intersect c y).insertionSort pocketLe,
          bb.min.x ≤ x ∧ x ≤ bb.max.x := by
        intro x hx
        have hx' : x ∈ scanline_intersect c y :=
          (List.perm_insertionSort pocketLe (scanline_intersect c y)).mem_iff.mp hx
        exact scanline_intersect_bounds c bb hb y x hx'
      obtain ⟨hxb, hyeq⟩ := pocketPairs_bounds off y safe_z cut_z fw bb.min.x bb.max.x
        _ hxs mv hrow
      exact ⟨hxb, by rw [hyeq], by rw [hyeq]; exact hy⟩
    · obtain ⟨hxb, hyb⟩ := ih (y + step) (!fw) hstep mv hrest
      exact ⟨hxb, by linarith [hyb.1], hyb.2⟩

/-- **C6.** Every toolpath produced by the pocket strategy comes from a
closed source contour with at least 3 points, and every one of its cut
moves lies inside that contour's bounding rectangle inset by the tool
radius `r = tool_diameter / 2` on all four sides. -/
theorem pocket_cuts_in_inset_bounds (contours : List Polyline) (params : CutParams)
    (tp : Toolpath) (htp : tp ∈ pocket_generate contours params) :
    ∃ c ∈ contours, c.closed = true ∧ 3 ≤ c.points.length ∧
      ∃ bb, c.bounds = some bb ∧
        ∀ mv ∈ tp.moves, mv.rapid = false →
          bb.min.x + params.tool_diameter / 2 ≤ mv.x ∧
          mv.x ≤ bb.max.x - params.tool_diameter / 2 ∧
          bb.min.y + params.tool_diameter / 2 ≤ mv.y ∧
          mv.y ≤ bb.max.y - params.tool_diameter / 2 := by
  obtain ⟨c, hc, hone⟩ := List.mem_filterMap.mp htp
  refine ⟨c, hc, ?_⟩
  unfold pocketOne at hone
  by_cases hguard : c.points.length < 3 ∨ c.closed = false
  · rw [if_pos hguard] at hone
    exact absurd hone (by simp)
  · rw [if_neg hguard] at hone
    push_neg at hguard
    obtain ⟨hlen, hclosed⟩ := hguard
    refine ⟨Bool.not_eq_false _ ▸ hclosed, by omega, ?_⟩
    cases hbb : c.bounds with
    | none => rw [hbb] at hone; exact absurd hone (by simp)
    | some bb =>
      rw [hbb] at hone
      refine ⟨bb, rfl, ?_⟩
      simp only at hone
      by_cases hmv : (pocketRowsGo c (params.tool_diameter / 2) (max params.step_over (1/10))
          (bb.max.y - (params.tool_diameter / 2)) params.safe_z params.cut_z
          ((⌈(bb.max.y - (params.tool_diameter / 2) - (bb.min.y + params.tool_diameter / 2))
              / max params.step_over (1/10)⌉ + 1).toNat)
          (bb.min.y + params.tool_diameter / 2) true).isEmpty
      · rw [if_pos hmv] at hone
        exact absurd hone (by simp)
      · rw [if_neg hmv] at hone
        obtain rfl := Option.some.inj hone
        intro mv hmv2 _
        have hstep : (0:ℚ) < max params.step_over (1/10) :=
          lt_of_lt_of_le (by norm_num) (le_max_right _ _)
        obtain ⟨hxb, hyb⟩ := pocketRowsGo_bounds c bb hbb (params.tool_diameter / 2)
          (max params.step_over (1/10)) (bb.max.y - params.tool_diameter / 2)
          params.safe_z params.cut_z _ _ true hstep mv hmv2
        exact ⟨hxb.1, hxb.2, hyb.1, hyb.2⟩

/-- The 10×10 unit-square test contour. -/
def sqPoly : Polyline := ⟨[⟨0,0⟩, ⟨10,0⟩, ⟨10,10⟩, ⟨0,10⟩], true⟩

/-- Pocket parameters: 2 mm tool, one scan row (step-over 20), cut at -1. -/
def pcwParams : CutParams :=
  { CutParams.default with tool_diameter := 2, step_over := 20, cut_z := -1 }

/-- The single-row pocket toolpath of `sqPoly` under `pcwParams`. -/
def tpPocketW : Toolpath :=
  ⟨[rapidMove 1 1 5, cutMove 1 1 (-1), cutMove 9 1 (-1), rapidMove 9 1 5]⟩

/-- Witness for C6 at the concrete square pocket. -/
theorem pocket_cuts_in_inset_bounds_w :
    tpPocketW ∈ pocket_generate [sqPoly] pcwParams ∧
    (∃ c ∈ [sqPoly], c.closed = true ∧ 3 ≤ c.points.length ∧
      ∃ bb, c.bounds = some bb ∧
        ∀ mv ∈ tpPocketW.moves, mv.rapid = false →
          bb.min.x + pcwParams.tool_diameter / 2 ≤ mv.x ∧
          mv.x ≤ bb.max.x - pcwParams.tool_diameter / 2 ∧
          bb.min.y + pcwParams.tool_diameter / 2 ≤ mv.y ∧
          mv.y ≤ bb.max.y - pcwParams.tool_diameter / 2) :=
  ⟨by decide, pocket_cuts_in_inset_bounds [sqPoly] pcwParams tpPocketW (by decide)⟩

-- ── Claim C3: perimeter passes ───────────────────────────────────────

theorem maxByArea_foldl : ∀ (l : List Polyline) (m : Polyline),
    ∃ sel, l.foldl
        (fun acc c =>
          match acc with
          | none => some c
          | some m' => if compare (polyArea m') (polyArea c) = Ordering.gt
              then some m' else some c)
        (some m) = some sel ∧
      (sel = m ∨ sel ∈ l) ∧ polyArea m ≤ polyArea sel ∧
      ∀ c ∈ l, polyArea c ≤ polyArea sel := by
  intro l
  induction l with
  | nil => intro m; exact ⟨m, rfl, Or.inl rfl, le_refl _, by simp⟩
  | cons c rest ih =>
    intro m
    simp only [List.foldl_cons]
    by_cases hgt : compare (polyArea m) (polyArea c) = Ordering.gt
    · rw [if_pos hgt]
      have hlt : polyArea c < polyArea m := compare_gt_iff_gt.mp hgt
      obtain ⟨sel, heq, hmem, hge, hall⟩ := ih m
      refine ⟨sel, heq, ?_, hge, ?_⟩
      · rcases hmem with rfl | hm
        · exact Or.inl rfl
        · exact Or.inr (List.mem_cons_of_mem _ hm)
      · intro d hd
        rcases List.mem_cons.mp hd with rfl | hd2
        · linarith
        · exact hall d hd2
    · rw [if_neg hgt]
      have hle : polyArea m ≤ polyArea c := by
        rcases lt_trichotomy (polyArea c) (polyArea m) with h | h | h
        · exact absurd (compare_gt_iff_gt.mpr h) hgt
        · exact le_of_eq h.symm
        · exact le_of_lt h
      obtain ⟨sel, heq, hmem, hge, hall⟩ := ih c
      refine ⟨sel, heq, ?_, le_trans hle hge, ?_⟩
      · rcases hmem with rfl | hm
        · exact Or.inr (by simp)
        · exact Or.inr (List.mem_cons_of_mem _ hm)
      · intro d hd
        rcases List.mem_cons.mp hd with rfl | hd2
        · exact hge
        · exact hall d hd2

theorem maxByArea_spec (contours : List Polyline) (hne : contours ≠ []) :
    ∃ sel, maxByArea contours = some sel ∧ sel ∈ contours ∧
      ∀ c ∈ contours, polyArea c ≤ polyArea sel := by
  cases contours with
  | nil => exact absurd rfl hne
  | cons c0 rest =>
    obtain ⟨sel, heq, hmem, hge0, hall⟩ := maxByArea_foldl rest c0
    refine ⟨sel, ?_, ?_, ?_⟩
    · unfold maxByArea
      simpa using heq
    · rcases hmem with rfl | hm
      · simp
      · exact List.mem_cons_of_mem _ hm
    · intro d hd
      rcases List.mem_cons.mp hd with rfl | hd2
      · exact hge0
      · exact hall d hd2

theorem offset_polyline_ne_nil (ops : RealOps) (poly : Polyline) (d : ℚ)
    (hne : poly.points ≠ []) : offset_polyline ops poly d ≠ [] := by
  unfold offset_polyline
  split
  · exact hne
  · rename_i hlen
    simp only [ne_eq, List.map_eq_nil_iff, List.range_eq_nil]
    omega

theorem perimeterPass_isSome (ops : RealOps) (params : CutParams) (contour : Polyline)
    (pass : ℕ) (hne : contour.points ≠ []) :
    (perimeterPass ops params contour pass).isSome = true := by
  unfold perimeterPass
  dsimp only
  have hoff := offset_polyline_ne_nil ops contour
    (params.tool_diameter / 2 + (pass : ℚ) * params.step_over) hne
  split
  · rename_i heq
    exfalso
    rcases hcl : params.climb_cut with _ | _
    · simp only [hcl, Bool.false_eq_true, if_false] at heq
      exact hoff heq
    · simp only [hcl, if_true, List.reverse_eq_nil_iff] at heq
      exact hoff heq
  · simp

theorem filterMap_all_some {α β : Type} (f : α → Option β) :
    ∀ (l : List α), (∀ a ∈ l, (f a).isSome = true) →
      (l.filterMap f).length = l.length ∧
      ∀ (k : ℕ), (l.filterMap f)[k]? = (l[k]?).bind f := by
  intro l
  induction l with
  | nil => intro _; exact ⟨rfl, fun k => by simp⟩
  | cons a rest ih =>
    intro hall
    obtain ⟨b, hb⟩ := Option.isSome_iff_exists.mp (hall a (by simp))
    obtain ⟨hlen, hidx⟩ := ih fun x hx => hall x (List.mem_cons_of_mem _ hx)
    constructor
    · rw [List.filterMap_cons, hb]
      simp [hlen]
    · intro k
      rw [List.filterMap_cons, hb]
      cases k with
      | zero => simp [hb]
      | succ k => simpa using hidx k

/-- **C3 (amended).** For a non-empty contour list whose contours are
non-empty point sequences (every slicer-produced contour is), the perimeter
strategy selects a maximum-bounding-rectangle-area contour `sel` and emits
exactly `N = max(perimeter_passes, 1)` toolpaths, the `k`-th being exactly
pass `k` of `sel` — the entry/follow/close/retract sequence over the
contour offset by `r + k·step_over`, reversed first when `climb_cut` is set
(see `perimeterPass`) — so passes are ordered outermost-first.  (As stated
the claim fails when the selected "contour" has no points: no toolpath at
all is emitted for it, see the counterexample.) -/
theorem perimeter_generate_spec (ops : RealOps) (contours : List Polyline)
    (params : CutParams) (hne : contours ≠ []) (hpts : ∀ c ∈ contours, c.points ≠ []) :
    ∃ sel, maxByArea contours = some sel ∧ sel ∈ contours ∧
      (∀ c ∈ contours, polyArea c ≤ polyArea sel) ∧
      (perimeter_generate ops contours params).length = max params.perimeter_passes 1 ∧
      ∀ k : ℕ, k < max params.perimeter_passes 1 →
        (perimeter_generate ops contours params)[k]? = perimeterPass ops params sel k := by
  obtain ⟨sel, hsel, hmem, hmax⟩ := maxByArea_spec contours hne
  have hselpts : sel.points ≠ [] := hpts sel hmem
  have hallsome : ∀ k ∈ List.range (max params.perimeter_passes 1),
      (perimeterPass ops params sel k).isSome = true :=
    fun k _ => perimeterPass_isSome ops params sel k hselpts
  obtain ⟨hlen, hidx⟩ := filterMap_all_some (perimeterPass ops params sel)
    (List.range (max params.perimeter_passes 1)) hallsome
  have hgen : perimeter_generate ops contours params =
      (List.range (max params.perimeter_passes 1)).filterMap
        (perimeterPass ops params sel) := by
    unfold perimeter_generate
    rw [hsel]
  refine ⟨sel, hsel, hmem, hmax, ?_, ?_⟩
  · rw [hgen, hlen, List.length_range]
  · intro k hk
    rw [hgen, hidx k, List.getElem?_range hk]
    rfl

/-- **C3, counterexample.** A contour list holding one degenerate polyline
with *no points* is a non-empty contour list, yet the perimeter strategy
emits 0 toolpaths instead of `N = max(perimeter_passes, 1) = 1`: the
selected contour's empty offset is skipped by the `continue`. -/
theorem perimeter_generate_cex :
    ([(⟨[], true⟩ : Polyline)] : List Polyline) ≠ [] ∧
    perimeter_generate ⟨fun _ _ => 0, fun _ _ => (0, 0, 0)⟩
      [(⟨[], true⟩ : Polyline)] CutParams.default = [] ∧
    max (CutParams.default).perimeter_passes 1 = 1 ∧ (1 : ℕ) ≠ 0 :=
  ⟨by decide, by decide, by decide, by decide⟩

/-- Perimeter parameters for the witness: two passes over the square. -/
def pwParams : CutParams :=
  { CutParams.default with tool_diameter := 2, step_over := 1, perimeter_passes := 2 }

/-- A `RealOps` instantiation with zero square-root kernels (the witness's
conclusions do not depend on the abstracted values). -/
def opsZero : RealOps := ⟨fun _ _ => 0, fun _ _ => (0, 0, 0)⟩

/-- Witness for the amended C3: two passes over the concrete square. -/
theorem perimeter_generate_spec_w :
    ∃ sel, maxByArea [sqPoly] = some sel ∧ sel ∈ [sqPoly] ∧
      (∀ c ∈ [sqPoly], polyArea c ≤ polyArea sel) ∧
      (perimeter_generate opsZero [sqPoly] pwParams).length = max pwParams.perimeter_passes 1 ∧
      ∀ k : ℕ, k < max pwParams.perimeter_passes 1 →
        (perimeter_generate opsZero [sqPoly] pwParams)[k]? =
          perimeterPass opsZero pwParams sel k :=
  perimeter_generate_spec opsZero [sqPoly] pwParams (by decide)
    (fun c hc => by fin_cases hc; decide)

-- ── Claim C2: first-move shape of every strategy ─────────────────────

theorem headRapid_map {l : List ToolpathMove} (hr : headRapid l) (hne : l ≠ []) :
    l.head?.map (·.rapid) = some true := by
  cases l with
  | nil => exact absurd rfl hne
  | cons mv rest => simpa using hr mv rfl

theorem contourOne_head (ops : RealOps) (params : CutParams) (c : Polyline) (tp : Toolpath)
    (h : contourOne ops params c = some tp) :
    tp.moves.head?.map (·.rapid) = some true := by
  unfold contourOne at h
  dsimp only at h
  split at h
  · exact absurd h (by simp)
  · obtain rfl := Option.some.inj h
    rfl

theorem perimeterPass_head (ops : RealOps) (params : CutParams) (c : Polyline) (pass : ℕ)
    (tp : Toolpath) (h : perimeterPass ops params c pass = some tp) :
    tp.moves.head?.map (·.rapid) = some true := by
  unfold perimeterPass at h
  dsimp only at h
  split at h
  · exact absurd h (by simp)
  · obtain rfl := Option.some.inj h
    rfl

theorem pocketPairs_headRapid (off y safe_z cut_z : ℚ) (fw : Bool) (xs : List ℚ) :
    headRapid (pocketPairs off y safe_z cut_z fw xs) := by
  induction xs using pocketPairs.induct off y safe_z cut_z fw with
  | case1 x0 x1 rest ih =>
    rw [pocketPairs]
    refine headRapid_append ?_ ih
    split
    · exact headRapid_nil
    · intro mv hmv
      obtain rfl := Option.some.inj hmv
      rfl
  | case2 xs h =>
    cases xs with
    | nil => exact headRapid_nil
    | cons x0 rest =>
      cases rest with
      | nil => exact headRapid_nil
      | cons x1 r2 => exact absurd rfl (h x0 x1 r2)

theorem pocketRowsGo_headRapid (c : Polyline) (off step y_max safe_z cut_z : ℚ) :
    ∀ (fuel : ℕ) (y : ℚ) (fw : Bool),
      headRapid (pocketRowsGo c off step y_max safe_z cut_z fuel y fw) := by
  intro fuel
  induction fuel with
  | zero => intro y fw; exact headRapid_nil
  | succ fuel ih =>
    intro y fw
    rw [pocketRowsGo]
    split
    · exact headRapid_append (pocketPairs_headRapid off y safe_z cut_z fw _) (ih (y + step) (!fw))
    · exact headRapid_nil

theorem pocketOne_head (params : CutParams) (c : Polyline) (tp : Toolpath)
    (h : pocketOne params c = some tp) :
    tp.moves.head?.map (·.rapid) = some true := by
  unfold pocketOne at h
  split at h
  · exact absurd h (by simp)
  · split at h
    · exact absurd h (by simp)
    · dsimp only at h
      split at h
      · exact absurd h (by simp)
      · rename_i hne
        obtain rfl := Option.some.inj h
        exact headRapid_map (pocketRowsGo_headRapid c _ _ _ _ _ _ _ true)
          fun e => hne (List.isEmpty_iff.mpr e)

theorem zigzagAssemble_nonempty (safe_z : ℚ) :
    ∀ (rows : List (List (ℚ × ℚ × ℚ))) (pe : Option (ℚ × ℚ × ℚ)) (tp : Toolpath),
      tp ∈ zigzagAssemble safe_z pe rows → tp.moves ≠ [] := by
  intro rows
  induction rows with
  | nil => intro pe tp htp; simp [zigzagAssemble] at htp
  | cons row rest ih =>
    intro pe tp htp
    cases row with
    | nil => exact ih pe tp htp
    | cons q t =>
      simp only [zigzagAssemble] at htp
      rcases List.mem_cons.mp htp with rfl | htail
      · cases pe <;> simp
      · exact ih _ tp htail

theorem zigzagAssemble_cut_heads (safe_z : ℚ) :
    ∀ (rows : List (List (ℚ × ℚ × ℚ))) (pe : ℚ × ℚ × ℚ) (tp : Toolpath),
      tp ∈ zigzagAssemble safe_z (some pe) rows →
      tp.moves.head?.map (·.rapid) = some false := by
  intro rows
  induction rows with
  | nil => intro pe tp htp; simp [zigzagAssemble] at htp
  | cons row rest ih =>
    intro pe tp htp
    cases row with
    | nil => exact ih pe tp htp
    | cons q t =>
      simp only [zigzagAssemble] at htp
      rcases List.mem_cons.mp htp with rfl | htail
      · rfl
      · exact ih _ tp htail

theorem zigzagAssemble_none_struct (safe_z : ℚ) :
    ∀ (rows : List (List (ℚ × ℚ × ℚ))),
      zigzagAssemble safe_z none rows = [] ∨
      ∃ tp0 rest, zigzagAssemble safe_z none rows = tp0 :: rest ∧
        tp0.moves.head?.map (·.rapid) = some true ∧
        ∀ tp ∈ rest, tp.moves.head?.map (·.rapid) = some false := by
  intro rows
  induction rows with
  | nil => exact Or.inl rfl
  | cons row rest ih =>
    cases row with
    | nil => exact ih
    | cons q t =>
      right
      refine ⟨_, _, rfl, rfl, ?_⟩
      intro tp htp
      exact zigzagAssemble_cut_heads safe_z rest _ tp htp

theorem appendRetract_heads (safe_z : ℚ) (pe : ℚ × ℚ × ℚ) :
    ∀ (l : List Toolpath), (∀ tp ∈ l, tp.moves ≠ []) →
      (appendRetract safe_z pe l).length = l.length ∧
      ∀ (k : ℕ) (tp' : Toolpath), (appendRetract safe_z pe l)[k]? = some tp' →
        ∃ tp, l[k]? = some tp ∧ tp'.moves.head? = tp.moves.head? := by
  intro l
  induction l with
  | nil => exact fun _ => ⟨rfl, fun k tp' h => by simp [appendRetract] at h⟩
  | cons tp0 rest ih =>
    intro hne
    cases rest with
    | nil =>
      refine ⟨rfl, ?_⟩
      intro k tp' h
      cases k with
      | zero =>
        simp only [appendRetract, List.getElem?_cons_zero] at h
        obtain rfl := Option.some.inj h
        refine ⟨tp0, rfl, ?_⟩
        have hm : tp0.moves ≠ [] := hne tp0 (by simp)
        cases hmv : tp0.moves with
        | nil => exact absurd hmv hm
        | cons mv ms => simp [hmv]
      | succ k => simp [appendRetract] at h
    | cons tp1 rest2 =>
      obtain ⟨hlen, hidx⟩ := ih fun tp htp => hne tp (List.mem_cons_of_mem _ htp)
      refine ⟨?_, ?_⟩
      · simp only [appendRetract, List.length_cons] at hlen ⊢
        omega
      · intro k tp' h
        cases k with
        | zero =>
          simp only [appendRetract, List.getElem?_cons_zero] at h
          exact ⟨tp0, by simp, by rw [← Option.some.inj h]⟩
        | succ k =>
          simp only [appendRetract, List.getElem?_cons_succ] at h
          obtain ⟨tp, htp, hhd⟩ := hidx k tp' h
          exact ⟨tp, by simpa using htp, hhd⟩

theorem zigzagFinal_heads (safe_z : ℚ) (rows : List (List (ℚ × ℚ × ℚ))) :
    (∀ tp : Toolpath,
        (match lastSample rows with
          | none => zigzagAssemble safe_z none rows
          | some pe => appendRetract safe_z pe (zigzagAssemble safe_z none rows))[0]? = some tp →
        tp.moves.head?.map (·.rapid) = some true) ∧
    (∀ (k : ℕ) (tp : Toolpath), 0 < k →
        (match lastSample rows with
          | none => zigzagAssemble safe_z none rows
          | some pe => appendRetract safe_z pe (zigzagAssemble safe_z none rows))[k]? = some tp →
        tp.moves.head?.map (·.rapid) = some false) := by
  have hne := zigzagAssemble_nonempty safe_z rows none
  rcases zigzagAssemble_none_struct safe_z rows with hempty | ⟨tp0, rest, heq, hhd0, hrest⟩
  · cases hls : lastSample rows with
    | none =>
      simp only [hls, hempty]
      exact ⟨fun tp h => by simp at h, fun k tp hk h => by simp at h⟩
    | some pe =>
      simp only [hls, hempty]
      exact ⟨fun tp h => by simp [appendRetract] at h,
        fun k tp hk h => by simp [appendRetract] at h⟩
  · cases hls : lastSample rows with
    | none =>
      simp only [hls, heq]
      constructor
      · intro tp h
        simp only [List.getElem?_cons_zero] at h
        obtain rfl := Option.some.inj h
        exact hhd0
      · intro k tp hk h
        cases k with
        | zero => omega
        | succ j =>
          simp only [List.getElem?_cons_succ] at h
          exact hrest tp (List.getElem?_mem h)
    | some pe =>
      simp only [hls]
      obtain ⟨hlen, hidx⟩ := appendRetract_heads safe_z pe _ hne
      constructor
      · intro tp h
        obtain ⟨tp1, htp1, hhd⟩ := hidx 0 tp h
        rw [heq, List.getElem?_cons_zero] at htp1
        obtain rfl := Option.some.inj htp1
        rw [hhd]
        exact hhd0
      · intro k tp hk h
        obtain ⟨tp1, htp1, hhd⟩ := hidx k tp h
        cases k with
        | zero => omega
        | succ j =>
          rw [heq, List.getElem?_cons_succ] at htp1
          have := hrest tp1 (List.getElem?_mem htp1)
          rw [hhd]
          exact this

/-- **C2 (amended).** Every toolpath emitted by the contour, pocket and
perimeter strategies begins with a rapid move.  For the zigzag surface
strategy only the *first* toolpath begins with a rapid (the entry to
safe-Z); every subsequent row's toolpath begins with a *cut* move — the
stay-down transfer from the previous row's last sample point — so the
claim's "every toolpath, any strategy" is false as stated (see the
counterexample). -/
theorem first_move_shape :
    (∀ (ops : RealOps) (contours : List Polyline) (params : CutParams) (tp : Toolpath),
        tp ∈ contour_generate ops contours params →
        tp.moves.head?.map (·.rapid) = some true) ∧
    (∀ (contours : List Polyline) (params : CutParams) (tp : Toolpath),
        tp ∈ pocket_generate contours params →
        tp.moves.head?.map (·.rapid) = some true) ∧
    (∀ (ops : RealOps) (contours : List Polyline) (params : CutParams) (tp : Toolpath),
        tp ∈ perimeter_generate ops contours params →
        tp.moves.head?.map (·.rapid) = some true) ∧
    (∀ (ops : RealOps) (sp : SurfaceParams) (tp : Toolpath),
        (generate_surface ops sp)[0]? = some tp →
        tp.moves.head?.map (·.rapid) = some true) ∧
    (∀ (ops : RealOps) (sp : SurfaceParams) (k : ℕ) (tp : Toolpath), 0 < k →
        (generate_surface ops sp)[k]? = some tp →
        tp.moves.head?.map (·.rapid) = some false) := by
  have hsurf : ∀ (ops : RealOps) (sp : SurfaceParams),
      (∀ tp : Toolpath, (generate_surface ops sp)[0]? = some tp →
        tp.moves.head?.map (·.rapid) = some true) ∧
      (∀ (k : ℕ) (tp : Toolpath), 0 < k → (generate_surface ops sp)[k]? = some tp →
        tp.moves.head?.map (·.rapid) = some false) := by
    intro ops sp
    unfold generate_surface
    cases hb : sp.mesh.bounds with
    | none => exact ⟨fun tp h => by simp at h, fun k tp hk h => by simp at h⟩
    | some bounds =>
      dsimp only
      exact zigzagFinal_heads sp.cut_params.safe_z _
  refine ⟨?_, ?_, ?_, ?_, ?_⟩
  · intro ops contours params tp htp
    obtain ⟨c, _, hone⟩ := List.mem_filterMap.mp htp
    exact contourOne_head ops params c tp hone
  · intro contours params tp htp
    obtain ⟨c, _, hone⟩ := List.mem_filterMap.mp htp
    exact pocketOne_head params c tp hone
  · intro ops contours params tp htp
    unfold perimeter_generate at htp
    cases hsel : maxByArea contours with
    | none => rw [hsel] at htp; simp at htp
    | some sel =>
      rw [hsel] at htp
      obtain ⟨k, _, hpass⟩ := List.mem_filterMap.mp htp
      exact perimeterPass_head ops params sel k tp hpass
  · intro ops sp tp h
    exact (hsurf ops sp).1 tp h
  · intro ops sp k tp hk h
    exact (hsurf ops sp).2 k tp hk h

/-- One upward triangle over `[0,4]×[0,4]` for the zigzag counterexample. -/
def meshTri : Mesh := Mesh.new [⟨⟨0,0,1⟩, ⟨0,0,0⟩, ⟨4,0,0⟩, ⟨0,4,0⟩⟩]

/-- Zigzag surface parameters over `meshTri` with a 4 mm step-over (an
end-mill, so the abstracted ball-end kernel is irrelevant). -/
def spZig : SurfaceParams :=
  ⟨meshTri, { CutParams.default with step_over := 4 }, ScanDirection.X⟩

/-- **C2, counterexample.** The zigzag run over `meshTri` produces two row
toolpaths, and the second one *begins with a cut move* (the stay-down
transfer), not a rapid — refuting "the first move of every toolpath is a
rapid" for the zigzag surface strategy. -/
theorem first_move_shape_cex :
    2 ≤ (generate_surface opsZero spZig).length ∧
    ((generate_surface opsZero spZig)[1]?.map fun tp => tp.moves.head?.map (·.rapid)) =
      some (some false) :=
  ⟨by decide, by decide⟩

/-- The second zigzag row toolpath of `spZig` (stay-down entry, row cut,
final retract). -/
def tpZig1 : Toolpath :=
  ⟨[cutMove 4 0 0, cutMove 0 4 0, rapidMove 0 4 5]⟩

/-- Witness for the amended C2: the zigzag parts applied at `spZig` — the
first toolpath starts with a rapid, the second with a cut. -/
theorem first_move_shape_w :
    (Toolpath.mk [rapidMove 0 0 5, cutMove 0 0 0, cutMove 4 0 0]).moves.head?.map (·.rapid) =
      some true ∧
    tpZig1.moves.head?.map (·.rapid) = some false :=
  ⟨first_move_shape.2.2.2.1 opsZero spZig ⟨[rapidMove 0 0 5, cutMove 0 0 0, cutMove 4 0 0]⟩
      (by decide),
   first_move_shape.2.2.2.2 opsZero spZig 1 tpZig1 (by decide) (by decide)⟩

-- ── Claim C10: zigzag moves stay inside the mesh XY bounds ───────────

theorem lastSample_mem : ∀ (rows : List (List (ℚ × ℚ × ℚ))) (q : ℚ × ℚ × ℚ),
    lastSample rows = some q → ∃ row ∈ rows, q ∈ row := by
  intro rows
  induction rows with
  | nil => intro q h; simp [lastSample] at h
  | cons row rest ih =>
    intro q h
    simp only [lastSample] at h
    cases hr : lastSample rest with
    | some p =>
      rw [hr] at h
      obtain rfl := Option.some.inj h
      obtain ⟨row2, hrow2, hq⟩ := ih p hr
      exact ⟨row2, List.mem_cons_of_mem _ hrow2, hq⟩
    | none =>
      rw [hr] at h
      exact ⟨row, by simp, List.mem_of_mem_getLast? h⟩

theorem zigzagAssemble_moves (safe_z : ℚ) (P : ℚ × ℚ → Prop) :
    ∀ (rows : List (List (ℚ × ℚ × ℚ))) (pe : Option (ℚ × ℚ × ℚ)),
      (∀ row ∈ rows, ∀ q ∈ row, P (q.1, q.2.1)) →
      (∀ q, pe = some q → P (q.1, q.2.1)) →
      ∀ tp ∈ zigzagAssemble safe_z pe rows, ∀ mv ∈ tp.moves, P (mv.x, mv.y) := by
  intro rows
  induction rows with
  | nil => intro pe _ _ tp htp; simp [zigzagAssemble] at htp
  | cons row rest ih =>
    intro pe hrows hpe tp htp mv hmv
    cases row with
    | nil =>
      exact ih pe (fun r hr => hrows r (List.mem_cons_of_mem _ hr)) hpe tp htp mv hmv
    | cons q0 t =>
      obtain ⟨x0, y0, z0⟩ := q0
      have hq0 : P (x0, y0) := hrows ((x0, y0, z0) :: t) (by simp) (x0, y0, z0) (by simp)
      have htq : ∀ q ∈ t, P (q.1, q.2.1) :=
        fun q hq => hrows ((x0, y0, z0) :: t) (by simp) q (List.mem_cons_of_mem _ hq)
      have hlastP : P ((((x0, y0, z0) :: t).getLast (by simp)).1,
          (((x0, y0, z0) :: t).getLast (by simp)).2.1) :=
        hrows ((x0, y0, z0) :: t) (by simp) _ (List.getLast_mem _)
      simp only [zigzagAssemble] at htp
      rcases List.mem_cons.mp htp with rfl | htail
      · simp only [List.mem_append] at hmv
        rcases hmv with hentry | hcut
        · cases pe with
          | none =>
            simp only [List.mem_cons, List.mem_singleton, List.not_mem_nil, or_false] at hentry
            rcases hentry with rfl | rfl
            · exact hq0
            · exact hq0
          | some p =>
            have hp : P (p.1, p.2.1) := hpe p rfl
            simp only [List.mem_cons, List.mem_singleton, List.not_mem_nil, or_false] at hentry
            rcases hentry with rfl | rfl
            · exact hp
            · exact hq0
        · obtain ⟨q, hq, rfl⟩ := List.mem_map.mp hcut
          exact htq q hq
      · refine ih _ (fun r hr => hrows r (List.mem_cons_of_mem _ hr)) ?_ tp htail mv hmv
        intro q hq
        obtain rfl := Option.some.inj hq
        exact hlastP

theorem appendRetract_moves (safe_z : ℚ) (pe : ℚ × ℚ × ℚ) :
    ∀ (l : List Toolpath) (tp : Toolpath), tp ∈ appendRetract safe_z pe l →
      ∀ mv ∈ tp.moves, (∃ tp0 ∈ l, mv ∈ tp0.moves) ∨ mv = rapidMove pe.1 pe.2.1 safe_z := by
  intro l
  induction l with
  | nil => intro tp htp; simp [appendRetract] at htp
  | cons tp0 rest ih =>
    intro tp htp mv hmv
    cases rest with
    | nil =>
      simp only [appendRetract, List.mem_singleton] at htp
      subst htp
      simp only [List.mem_append, List.mem_singleton] at hmv
      rcases hmv with hm | rfl
      · exact Or.inl ⟨tp0, by simp, hm⟩
      · exact Or.inr rfl
    | cons tp1 rest2 =>
      simp only [appendRetract] at htp
      rcases List.mem_cons.mp htp with rfl | htail
      · exact Or.inl ⟨tp, by simp, hmv⟩
      · rcases ih tp htail mv hmv with ⟨tpx, htpx, hmx⟩ | hr
        · exact Or.inl ⟨tpx, List.mem_cons_of_mem _ htpx, hmx⟩
        · exact Or.inr hr

theorem float_range_mem (start stop step : ℚ) (hle : start ≤ stop) (hstep : 0 < step) :
    ∀ v ∈ float_range start stop step, start ≤ v ∧ v ≤ stop := by
  intro v hv
  unfold float_range at hv
  obtain ⟨i, _, rfl⟩ := List.mem_map.mp hv
  constructor
  · refine le_min ?_ hle
    have : (0:ℚ) ≤ (i:ℚ) * step := mul_nonneg (Nat.cast_nonneg i) (le_of_lt hstep)
    linarith
  · exact min_le_right _ _

theorem zigzagRow_bounds (ops : RealOps) (mesh : Mesh) (sc : ScanDirection)
    (tr lo hi step rc : ℚ) (fw : Bool) (hle : lo ≤ hi) (hstep : 0 < step) :
    ∀ q ∈ zigzagRow ops mesh sc false tr lo hi step rc fw,
      ∃ v, lo ≤ v ∧ v ≤ hi ∧ (q.1, q.2.1) = scanPoint sc rc v := by
  intro q hq
  unfold zigzagRow at hq
  obtain ⟨v, hv, hs⟩ := List.mem_filterMap.mp hq
  have hvr : v ∈ float_range lo hi step := by
    rcases fw with _ | _
    · simp only [Bool.false_eq_true, if_false] at hv
      exact List.mem_reverse.mp hv
    · simpa using hv
  obtain ⟨hv1, hv2⟩ := float_range_mem lo hi step hle hstep v hvr
  refine ⟨v, hv1, hv2, ?_⟩
  unfold sample_point at hs
  obtain ⟨z, _, hz⟩ := Option.map_eq_some'.mp hs
  simp only [Bool.false_eq_true, if_false] at hz
  rw [← hz]

theorem zigzagRowsGo_bounds (ops : RealOps) (mesh : Mesh) (sc : ScanDirection)
    (tr lo hi step rc_max : ℚ) (hle : lo ≤ hi) (hstep : 0 < step) :
    ∀ (fuel : ℕ) (rc : ℚ) (fw : Bool) (rc0 : ℚ), rc0 ≤ rc →
      ∀ row ∈ zigzagRowsGo ops mesh sc false tr lo hi step rc_max fuel rc fw,
        ∀ q ∈ row, ∃ v rc', lo ≤ v ∧ v ≤ hi ∧ rc0 ≤ rc' ∧ rc' ≤ rc_max ∧
          (q.1, q.2.1) = scanPoint sc rc' v := by
  intro fuel
  induction fuel with
  | zero => intro rc fw rc0 _ row hrow; simp [zigzagRowsGo] at hrow
  | succ fuel ih =>
    intro rc fw rc0 hrc0 row hrow q hq
    simp only [zigzagRowsGo] at hrow
    by_cases hrc : rc ≤ rc_max
    case neg => rw [if_neg hrc] at hrow; simp at hrow
    rw [if_pos hrc] at hrow
    split at hrow
    · exact ih (rc + step) (!fw) rc0 (by linarith) row hrow q hq
    · rcases List.mem_cons.mp hrow with rfl | htail
      · obtain ⟨v, hv1, hv2, heq⟩ := zigzagRow_bounds ops mesh sc tr lo hi step rc fw
          hle hstep q hq
        exact ⟨v, rc, hv1, hv2, hrc0, hrc, heq⟩
      · exact ih (rc + step) (!fw) rc0 (by linarith) row htail q hq

theorem bbStep_le (acc : Vec3 × Vec3) (v : Vec3) :
    (bbStep acc v).1.x ≤ (bbStep acc v).2.x ∧ (bbStep acc v).1.y ≤ (bbStep acc v).2.y :=
  ⟨le_trans (min_le_right acc.1.x v.x) (le_max_right acc.2.x v.x),
   le_trans (min_le_right acc.1.y v.y) (le_max_right acc.2.y v.y)⟩

theorem bb3_foldl_le (l : List Triangle) : ∀ (acc : Vec3 × Vec3),
    acc.1.x ≤ acc.2.x ∧ acc.1.y ≤ acc.2.y →
    (l.foldl (fun acc t => bbStep (bbStep (bbStep acc t.v0) t.v1) t.v2) acc).1.x ≤
      (l.foldl (fun acc t => bbStep (bbStep (bbStep acc t.v0) t.v1) t.v2) acc).2.x ∧
    (l.foldl (fun acc t => bbStep (bbStep (bbStep acc t.v0) t.v1) t.v2) acc).1.y ≤
      (l.foldl (fun acc t => bbStep (bbStep (bbStep acc t.v0) t.v1) t.v2) acc).2.y := by
  induction l with
  | nil => intro acc h; exact h
  | cons t rest ih =>
    intro acc _
    simp only [List.foldl_cons]
    exact ih _ (bbStep_le _ _)

theorem mesh_new_bounds_le (tris : List Triangle) (b : BoundingBox)
    (hb : (Mesh.new tris).bounds = some b) :
    b.min.x ≤ b.max.x ∧ b.min.y ≤ b.max.y := by
  unfold Mesh.new BoundingBox.from_triangles at hb
  simp only at hb
  cases tris with
  | nil => simp at hb
  | cons t rest =>
    rw [if_neg (by simp)] at hb
    obtain rfl := Option.some.inj hb
    simp only [List.foldl_cons]
    exact bb3_foldl_le rest _ (bbStep_le _ _)

theorem zigzagOut_moves (safe_z : ℚ) (P : ℚ × ℚ → Prop) (rows : List (List (ℚ × ℚ × ℚ)))
    (hrows : ∀ row ∈ rows, ∀ q ∈ row, P (q.1, q.2.1)) :
    ∀ tp ∈ (match lastSample rows with
        | none => zigzagAssemble safe_z none rows
        | some pe => appendRetract safe_z pe (zigzagAssemble safe_z none rows)),
      ∀ mv ∈ tp.moves, P (mv.x, mv.y) := by
  cases hls : lastSample rows with
  | none =>
    simp only [hls]
    exact zigzagAssemble_moves safe_z P rows none hrows (by simp)
  | some pe =>
    simp only [hls]
    intro tp htp mv hmv
    rcases appendRetract_moves safe_z pe _ tp htp mv hmv with ⟨tp0, htp0, hmv0⟩ | rfl
    · exact zigzagAssemble_moves safe_z P rows none hrows (by simp) tp0 htp0 mv hmv0
    · obtain ⟨row, hrow, hpe⟩ := lastSample_mem rows pe hls
      exact hrows row hrow pe hpe

/-- **C10.** For a mesh with bounds and a non-ball-end tool, every move
(rapid or cut) of every toolpath emitted by the zigzag surface strategy has
its X within `[bounds.min.x, bounds.max.x]` and its Y within
`[bounds.min.y, bounds.max.y]`: `float_range` clamps each scan sample into
its interval and the row coordinate never passes its maximum. -/
theorem zigzag_moves_in_bounds (ops : RealOps) (tris : List Triangle) (cp : CutParams)
    (sc : ScanDirection) (b : BoundingBox)
    (hb : (Mesh.new tris).bounds = some b)
    (htool : cp.tool.tool_type ≠ ToolType.BallEnd) :
    ∀ tp ∈ generate_surface ops ⟨Mesh.new tris, cp, sc⟩, ∀ mv ∈ tp.moves,
      b.min.x ≤ mv.x ∧ mv.x ≤ b.max.x ∧ b.min.y ≤ mv.y ∧ mv.y ≤ b.max.y := by
  obtain ⟨hxle, hyle⟩ := mesh_new_bounds_le tris b hb
  have hstep : (0:ℚ) < max cp.step_over (1/10) :=
    lt_of_lt_of_le (by norm_num) (le_max_right _ _)
  have hdec : (decide (cp.tool.tool_type = ToolType.BallEnd)) = false :=
    decide_eq_false htool
  unfold generate_surface
  simp only [hb]
  dsimp only
  rw [hdec]
  cases sc with
  | X =>
    dsimp only
    refine zigzagOut_moves cp.safe_z
      (fun xy => b.min.x ≤ xy.1 ∧ xy.1 ≤ b.max.x ∧ b.min.y ≤ xy.2 ∧ xy.2 ≤ b.max.y) _ ?_
    intro row hrow q hq
    obtain ⟨v, rc', hv1, hv2, hrc1, hrc2, heq⟩ := zigzagRowsGo_bounds ops (Mesh.new tris)
      ScanDirection.X (cp.tool.diameter / 2) b.min.x b.max.x (max cp.step_over (1/10))
      b.max.y hxle hstep _ b.min.y true b.min.y (le_refl _) row hrow q hq
    have h1 : q.1 = v := congrArg Prod.fst heq
    have h2 : q.2.1 = rc' := congrArg Prod.snd heq
    rw [h1, h2]
    exact ⟨hv1, hv2, hrc1, hrc2⟩
  | Y =>
    dsimp only
    refine zigzagOut_moves cp.safe_z
      (fun xy => b.min.x ≤ xy.1 ∧ xy.1 ≤ b.max.x ∧ b.min.y ≤ xy.2 ∧ xy.2 ≤ b.max.y) _ ?_
    intro row hrow q hq
    obtain ⟨v, rc', hv1, hv2, hrc1, hrc2, heq⟩ := zigzagRowsGo_bounds ops (Mesh.new tris)
      ScanDirection.Y (cp.tool.diameter / 2) b.min.y b.max.y (max cp.step_over (1/10))
      b.max.x hyle hstep _ b.min.x true b.min.x (le_refl _) row hrow q hq
    have h1 : q.1 = rc' := congrArg Prod.fst heq
    have h2 : q.2.1 = v := congrArg Prod.snd heq
    rw [h1, h2]
    exact ⟨hrc1, hrc2, hv1, hv2⟩

/-- Witness for C10 at the concrete one-triangle mesh: the cut at `(4,0)`
lies inside the XY bounds `[0,4] × [0,4]`. -/
theorem zigzag_moves_in_bounds_w :
    (⟨⟨0,0,0⟩,⟨4,4,0⟩⟩ : BoundingBox).min.x ≤ (cutMove 4 0 0).x ∧
    (cutMove 4 0 0).x ≤ (⟨⟨0,0,0⟩,⟨4,4,0⟩⟩ : BoundingBox).max.x ∧
    (⟨⟨0,0,0⟩,⟨4,4,0⟩⟩ : BoundingBox).min.y ≤ (cutMove 4 0 0).y ∧
    (cutMove 4 0 0).y ≤ (⟨⟨0,0,0⟩,⟨4,4,0⟩⟩ : BoundingBox).max.y :=
  zigzag_moves_in_bounds opsZero [⟨⟨0,0,1⟩, ⟨0,0,0⟩, ⟨4,0,0⟩, ⟨0,4,0⟩⟩]
    { CutParams.default with step_over := 4 } ScanDirection.X ⟨⟨0,0,0⟩,⟨4,4,0⟩⟩
    (by decide) (by decide)
    ⟨[rapidMove 0 0 5, cutMove 0 0 0, cutMove 4 0 0]⟩ (by decide)
    (cutMove 4 0 0) (by decide)
